import Mathlib

/-!
Verification of the grand-cypher graph query engine against a shallow
embedding of its source (src/grandcypher).  Python dictionaries are embedded
as association lists, Python attribute values as the inductive type PyVal,
and each function under study is translated clause by clause from the source
file it lives in.  Sorting by the Python builtin is embedded as a
comparison-faithful insertion sort; Python exceptions are embedded with
Except.
-/

set_option maxHeartbeats 1000000

namespace GrandCypher

/-- Python attribute values as they occur in motif and host attribute
dictionaries: None, integers, strings, booleans, and sets of strings (the
representation used for the special label attribute). -/
inductive PyVal where
  | pnone
  | pint (n : Int)
  | pstr (s : String)
  | pbool (b : Bool)
  | plabels (ls : List String)
deriving DecidableEq, Repr

/-- Boolean test that every member of the first list occurs in the second:
set containment for the list representation of Python string sets. -/
def subsetL (a b : List String) : Bool := a.all (fun x => b.contains x)

/-- Python equality on embedded values; set values compare by mutual
containment, every other shape compares structurally. -/
def pyEq : PyVal → PyVal → Bool
  | .plabels a, .plabels b => subsetL a b && subsetL b a
  | a, b => a == b

/-- Python truthiness of an embedded value: None, zero, the empty string and
the empty set are falsy. -/
def pyTruthy : PyVal → Bool
  | .pnone => false
  | .pint n => decide (n ≠ 0)
  | .pstr s => decide (s ≠ "")
  | .pbool b => b
  | .plabels ls => decide (ls ≠ [])

/-- A Python attribute dictionary, embedded as an association list. -/
abbrev Attrs := List (String × PyVal)

/-- Python dict.get with a default value. -/
def aget (d : Attrs) (k : String) (dflt : PyVal) : PyVal :=
  match d.find? (fun p => p.1 == k) with
  | some p => p.2
  | none => dflt

/-- Python membership test for a dictionary key. -/
def hasKey (d : Attrs) (k : String) : Bool := d.any (fun p => p.1 == k)

/-- View of a value as a label set; non-set values give the empty set (the
embedding only applies this under the well-formedness hypothesis that rules
the non-set case out). -/
def asLabels : PyVal → List String
  | .plabels ls => ls
  | _ => []

/-- The reserved attribute name that carries node and edge labels. -/
def labelsKey : String := "__labels__"

/-- The label set stored in a dictionary, defaulting to the empty set, as in
the source expression node.get with default set(). -/
def labelSet (d : Attrs) : List String := asLabels (aget d labelsKey (.plabels []))

/-- Recognizer for set-shaped values. -/
def isLabelsVal : PyVal → Bool
  | .plabels _ => true
  | _ => false

/-- Well-formedness of an attribute dictionary following the graph encoding
conventions: keys are unique (it embeds a Python dict) and the labels key,
when present, holds a set of strings. -/
def wfAttrs (d : Attrs) : Bool :=
  decide ((d.map Prod.fst).Nodup) &&
    d.all (fun kv => !(kv.1 == labelsKey) || isLabelsVal kv.2)

/-- Shallow embedding of grandcypher._is_node_attr_match (src/grandcypher/
iinit, lines 206 to 217): iterate over the motif node attributes; for the
labels attribute, reject when the motif set is truthy and its difference
with the host label set is truthy; for any other attribute, reject unless
the host value under a None-defaulting get equals the motif value. -/
def isNodeAttrMatch (motifNode hostNode : Attrs) : Bool :=
  motifNode.all (fun kv =>
    if kv.1 == labelsKey then
      !(pyTruthy kv.2 &&
        !((asLabels kv.2).filter (fun x => !(labelSet hostNode).contains x)).isEmpty)
    else
      pyEq (aget hostNode kv.1 .pnone) kv.2)

/-- The non-label half of claim C1 as the claim states it: every non-label
motif attribute is present in the host dictionary with an equal value. -/
def claimNodeAttrsPresent (motifNode hostNode : Attrs) : Prop :=
  ∀ kv ∈ motifNode, kv.1 ≠ labelsKey →
    ∃ kw ∈ hostNode, kw.1 = kv.1 ∧ pyEq kw.2 kv.2 = true

instance (m h : Attrs) : Decidable (claimNodeAttrsPresent m h) := by
  unfold claimNodeAttrsPresent; infer_instance

/-- C1, counterexample to the claim as stated: a motif attribute whose value
is None matches a host node from which the attribute is absent entirely,
because the source compares against a None-defaulting get; so the predicate
holds while the attribute is not present in the host. -/
theorem C1_counterexample :
    isNodeAttrMatch [("x", PyVal.pnone)] [] = true ∧
      ¬ claimNodeAttrsPresent [("x", PyVal.pnone)] [] := by
  constructor
  · rfl
  · decide

/-- C1 (amended): for well-formed dictionaries, the node compatibility
predicate accepts iff every non-label motif attribute equals the host value
under a None-defaulting lookup (so a motif attribute set to None also
matches a host missing the attribute), and the label set of every labels
entry of the motif is contained in the host label set (an empty motif label
set matches every host node). -/
theorem C1_node_attr_match (m h : Attrs)
    (hm : wfAttrs m = true) (hh : wfAttrs h = true) :
    isNodeAttrMatch m h = true ↔
      ((∀ kv ∈ m, kv.1 ≠ labelsKey → pyEq (aget h kv.1 .pnone) kv.2 = true) ∧
        (∀ kv ∈ m, kv.1 = labelsKey → subsetL (asLabels kv.2) (labelSet h) = true)) := by
  have hmlab : ∀ kv ∈ m, kv.1 = labelsKey → isLabelsVal kv.2 = true := by
    intro kv hkv hk
    have h2 := hm
    simp only [wfAttrs, Bool.and_eq_true, List.all_eq_true] at h2
    have h3 := h2.2 kv hkv
    rw [Bool.or_eq_true] at h3
    rcases h3 with h3 | h3
    · exfalso
      have h4 : (kv.1 == labelsKey) = true := by simp [hk]
      simp [h4] at h3
    · exact h3
  unfold isNodeAttrMatch
  rw [List.all_eq_true]
  constructor
  · intro H
    constructor
    · intro kv hkv hne
      have := H kv hkv
      have hk : (kv.1 == labelsKey) = false := by
        simp only [beq_eq_false_iff_ne, ne_eq]; exact hne
      rw [hk] at this
      simpa using this
    · intro kv hkv hk
      have := H kv hkv
      have hkb : (kv.1 == labelsKey) = true := by simp [hk]
      rw [hkb] at this
      simp only [if_true] at this
      obtain ⟨ls, hls⟩ : ∃ ls, kv.2 = PyVal.plabels ls := by
        have := hmlab kv hkv hk
        cases hv : kv.2 <;> simp [isLabelsVal, hv] at this ⊢
      rw [hls] at this ⊢
      by_cases hempty : ls = []
      · subst hempty; rfl
      · have ht : pyTruthy (PyVal.plabels ls) = true := by
          simp [pyTruthy, hempty]
        rw [ht] at this
        simp only [Bool.true_and, Bool.not_not] at this
        rw [List.isEmpty_iff, List.filter_eq_nil_iff] at this
        unfold subsetL
        rw [List.all_eq_true]
        intro x hx
        have h5 := this x (by simpa [asLabels] using hx)
        simpa using h5
  · rintro ⟨H1, H2⟩ kv hkv
    by_cases hk : kv.1 = labelsKey
    · have hkb : (kv.1 == labelsKey) = true := by simp [hk]
      rw [hkb]
      simp only [if_true]
      obtain ⟨ls, hls⟩ : ∃ ls, kv.2 = PyVal.plabels ls := by
        have := hmlab kv hkv hk
        cases hv : kv.2 <;> simp [isLabelsVal, hv] at this ⊢
      have hsub := H2 kv hkv hk
      rw [hls] at hsub ⊢
      by_cases hempty : ls = []
      · subst hempty; rfl
      · have ht : pyTruthy (PyVal.plabels ls) = true := by
          simp [pyTruthy, hempty]
        rw [ht]
        unfold subsetL at hsub
        rw [List.all_eq_true] at hsub
        simp only [Bool.true_and, Bool.not_not, List.isEmpty_iff, List.filter_eq_nil_iff,
          asLabels]
        intro x hx
        have h5 := hsub x (by simpa [asLabels] using hx)
        simpa using h5
    · have hkb : (kv.1 == labelsKey) = false := by
        simp only [beq_eq_false_iff_ne, ne_eq]; exact hk
      rw [hkb]
      simpa using H1 kv hkv hk

/-- C1 witness: the amended theorem applied at a concrete motif node and
host node. -/
theorem C1_node_attr_match_witness :
    wfAttrs [("name", PyVal.pstr "Alice"), (labelsKey, PyVal.plabels ["Person"])] = true ∧
      wfAttrs [("name", PyVal.pstr "Alice"), ("age", PyVal.pint 25),
        (labelsKey, PyVal.plabels ["Person", "Node"])] = true ∧
      (isNodeAttrMatch
          [("name", PyVal.pstr "Alice"), (labelsKey, PyVal.plabels ["Person"])]
          [("name", PyVal.pstr "Alice"), ("age", PyVal.pint 25),
            (labelsKey, PyVal.plabels ["Person", "Node"])] = true ↔
        ((∀ kv ∈ [("name", PyVal.pstr "Alice"), (labelsKey, PyVal.plabels ["Person"])],
            kv.1 ≠ labelsKey → pyEq (aget [("name", PyVal.pstr "Alice"),
              ("age", PyVal.pint 25), (labelsKey, PyVal.plabels ["Person", "Node"])]
              kv.1 .pnone) kv.2 = true) ∧
          (∀ kv ∈ [("name", PyVal.pstr "Alice"), (labelsKey, PyVal.plabels ["Person"])],
            kv.1 = labelsKey → subsetL (asLabels kv.2)
              (labelSet [("name", PyVal.pstr "Alice"), ("age", PyVal.pint 25),
                (labelsKey, PyVal.plabels ["Person", "Node"])]) = true))) :=
  ⟨by decide, by decide, C1_node_attr_match _ _ (by decide) (by decide)⟩

/-! Edge compatibility (claim C2).  Edge data between two endpoints is kept
in the multigraph shape the source normalizes to: a dictionary from integer
edge keys to attribute dictionaries, and None when the edge is absent. -/

/-- Edge data between an ordered node pair, in multigraph format. -/
abbrev EdgeData := List (Nat × Attrs)

/-- Python equality of two attribute dictionaries: the same keys, with
pairwise equal values. -/
def dictEq (a b : Attrs) : Bool :=
  (a.all fun p =>
    match b.find? (fun q => q.1 == p.1) with
    | some q => pyEq q.2 p.2
    | none => false) &&
  (b.all fun p => a.any fun q => q.1 == p.1)

/-- Shallow embedding of grandcypher._aggregate_edge_labels (src/grandcypher/
iinit, lines 283 to 293): walk the per-key attribute maps; a key whose map
has a truthy labels entry contributes its labels to the merged set and is
dropped; a key whose map has no labels entry is kept verbatim; a key whose
labels entry is present but falsy is dropped without contributing.  The
source builds the merged set with set.update inside a left fold; this
recursion produces the same label multiset up to order and the kept entries
in the same order. -/
def aggregateEdgeLabels : EdgeData → List String × EdgeData
  | [] => ([], [])
  | e :: rest =>
    if hasKey e.2 labelsKey && pyTruthy (aget e.2 labelsKey .pnone) then
      (asLabels (aget e.2 labelsKey .pnone) ++ (aggregateEdgeLabels rest).1,
        (aggregateEdgeLabels rest).2)
    else if !hasKey e.2 labelsKey then
      ((aggregateEdgeLabels rest).1, e :: (aggregateEdgeLabels rest).2)
    else aggregateEdgeLabels rest

/-- Shallow embedding of grandcypher._is_edge_attr_match (src/grandcypher/
iinit, lines 220 to 269) on already-fetched edge data: reject when either
side is absent or empty; aggregate both sides; reject when the motif
requires at least one label and the aggregated label sets are disjoint;
otherwise require every kept aggregated motif entry to equal the host entry
at the same key. -/
def isEdgeAttrMatch (motifEdges hostEdges : Option EdgeData) : Bool :=
  match motifEdges, hostEdges with
  | some me, some he =>
    if me.isEmpty || he.isEmpty then false
    else
      let ma := aggregateEdgeLabels me
      let ha := aggregateEdgeLabels he
      if !ma.1.isEmpty && !(ma.1.any fun t => ha.1.contains t) then false
      else
        ma.2.all fun p =>
          match ha.2.find? (fun q => q.1 == p.1) with
          | some q => dictEq q.2 p.2
          | none => false
  | _, _ => false

/-- The aggregated-edge view exactly as claim C2 words it: the union of all
edge-key label sets merged into one set, with the per-key attribute maps
kept verbatim. -/
def claimAggregate (edges : EdgeData) : List String × EdgeData :=
  (edges.foldl (fun acc e => acc ++ asLabels (aget e.2 labelsKey (.plabels []))) [],
    edges)

/-- The edge-compatibility predicate exactly as claim C2 words it, built on
the claimed aggregated view. -/
def claimEdgeMatch (motifEdges hostEdges : Option EdgeData) : Bool :=
  match motifEdges, hostEdges with
  | some me, some he =>
    if me.isEmpty || he.isEmpty then false
    else
      let ma := claimAggregate me
      let ha := claimAggregate he
      if !ma.1.isEmpty && !(ma.1.any fun t => ha.1.contains t) then false
      else
        ma.2.all fun p =>
          match ha.2.find? (fun q => q.1 == p.1) with
          | some q => dictEq q.2 p.2
          | none => false
  | _, _ => false

/-- C2 counterexample: the source drops the whole per-key attribute map of
any key that carries a labels entry, so two parallel edges with the same
label but different amounts match; under the claimed kept-verbatim
aggregation the amounts would be compared and the match would fail. -/
theorem C2_counterexample :
    isEdgeAttrMatch
        (some [(0, [(labelsKey, PyVal.plabels ["A"]), ("amount", PyVal.pint 10)])])
        (some [(0, [(labelsKey, PyVal.plabels ["A"]), ("amount", PyVal.pint 20)])]) = true ∧
      claimEdgeMatch
        (some [(0, [(labelsKey, PyVal.plabels ["A"]), ("amount", PyVal.pint 10)])])
        (some [(0, [(labelsKey, PyVal.plabels ["A"]), ("amount", PyVal.pint 20)])]) = false := by
  constructor <;> rfl

/-- Unfolding equation for the aggregation: a key with a truthy labels entry
contributes its labels and is dropped from the attribute view. -/
theorem aggregateEdgeLabels_cons_merge (e : Nat × Attrs) (rest : EdgeData)
    (hk : hasKey e.2 labelsKey = true) (ht : pyTruthy (aget e.2 labelsKey .pnone) = true) :
    aggregateEdgeLabels (e :: rest) =
      (asLabels (aget e.2 labelsKey .pnone) ++ (aggregateEdgeLabels rest).1,
        (aggregateEdgeLabels rest).2) := by
  simp [aggregateEdgeLabels, hk, ht]

/-- Unfolding equation for the aggregation: a key with no labels entry is
kept verbatim. -/
theorem aggregateEdgeLabels_cons_keep (e : Nat × Attrs) (rest : EdgeData)
    (hk : hasKey e.2 labelsKey = false) :
    aggregateEdgeLabels (e :: rest) =
      ((aggregateEdgeLabels rest).1, e :: (aggregateEdgeLabels rest).2) := by
  simp [aggregateEdgeLabels, hk]

/-- Unfolding equation for the aggregation: a key with a falsy labels entry
is dropped entirely, contributing nothing. -/
theorem aggregateEdgeLabels_cons_drop (e : Nat × Attrs) (rest : EdgeData)
    (hk : hasKey e.2 labelsKey = true) (ht : pyTruthy (aget e.2 labelsKey .pnone) = false) :
    aggregateEdgeLabels (e :: rest) = aggregateEdgeLabels rest := by
  simp [aggregateEdgeLabels, hk, ht]

/-- Labels of the source aggregation are exactly the labels of the keys
whose attribute map carries a truthy labels entry. -/
theorem aggregate_fst_mem (edges : EdgeData) (t : String) :
    t ∈ (aggregateEdgeLabels edges).1 ↔
      ∃ e ∈ edges, (hasKey e.2 labelsKey && pyTruthy (aget e.2 labelsKey .pnone)) = true ∧
        t ∈ asLabels (aget e.2 labelsKey .pnone) := by
  induction edges with
  | nil => simp [aggregateEdgeLabels]
  | cons e rest ih =>
    cases hk : hasKey e.2 labelsKey with
    | false =>
      rw [aggregateEdgeLabels_cons_keep e rest hk]
      constructor
      · intro hmem
        obtain ⟨f, hf, hc, htf⟩ := ih.mp hmem
        exact ⟨f, List.mem_cons_of_mem _ hf, hc, htf⟩
      · rintro ⟨f, hf, hc, htf⟩
        rcases List.mem_cons.mp hf with rfl | hf
        · rw [hk] at hc; simp at hc
        · exact ih.mpr ⟨f, hf, hc, htf⟩
    | true =>
      cases ht : pyTruthy (aget e.2 labelsKey .pnone) with
      | false =>
        rw [aggregateEdgeLabels_cons_drop e rest hk ht]
        rw [ih]
        constructor
        · rintro ⟨f, hf, hc, htf⟩
          exact ⟨f, List.mem_cons_of_mem _ hf, hc, htf⟩
        · rintro ⟨f, hf, hc, htf⟩
          rcases List.mem_cons.mp hf with rfl | hf
          · rw [hk, ht] at hc; simp at hc
          · exact ⟨f, hf, hc, htf⟩
      | true =>
        rw [aggregateEdgeLabels_cons_merge e rest hk ht]
        have hsplit : t ∈ asLabels (aget e.2 labelsKey .pnone) ++ (aggregateEdgeLabels rest).1 ↔
            t ∈ asLabels (aget e.2 labelsKey .pnone) ∨ t ∈ (aggregateEdgeLabels rest).1 :=
          List.mem_append
        constructor
        · intro hmem
          rcases hsplit.mp hmem with htl | htl
          · exact ⟨e, List.mem_cons_self e rest, by simp [hk, ht], htl⟩
          · obtain ⟨f, hf, hc, htf⟩ := ih.mp htl
            exact ⟨f, List.mem_cons_of_mem _ hf, hc, htf⟩
        · rintro ⟨f, hf, hc, htf⟩
          rcases List.mem_cons.mp hf with rfl | hf
          · exact hsplit.mpr (Or.inl htf)
          · exact hsplit.mpr (Or.inr (ih.mpr ⟨f, hf, hc, htf⟩))

/-- The kept entries of the source aggregation are exactly the input keys
whose attribute map has no labels entry, in input order. -/
theorem aggregate_snd_eq (edges : EdgeData) :
    (aggregateEdgeLabels edges).2 = edges.filter (fun e => !hasKey e.2 labelsKey) := by
  induction edges with
  | nil => simp [aggregateEdgeLabels]
  | cons e rest ih =>
    cases hk : hasKey e.2 labelsKey with
    | false =>
      rw [aggregateEdgeLabels_cons_keep e rest hk, List.filter_cons]
      simp [hk, ih]
    | true =>
      cases ht : pyTruthy (aget e.2 labelsKey .pnone) with
      | false =>
        rw [aggregateEdgeLabels_cons_drop e rest hk ht, List.filter_cons]
        simp [hk, ih]
      | true =>
        rw [aggregateEdgeLabels_cons_merge e rest hk ht, List.filter_cons]
        simp [hk, ih]

/-- C2 (amended): absent edge data on either side is rejected, and for
present data the predicate accepts iff both sides are nonempty, the
aggregated motif label set is empty or intersects the aggregated host label
set, and every kept aggregated motif entry (exactly the motif keys with no
labels entry, by aggregate_snd_eq) finds an equal attribute map at its key
in the aggregated host view. -/
theorem C2_edge_attr_match (m h : EdgeData) :
    isEdgeAttrMatch none (some h) = false ∧
      isEdgeAttrMatch (some m) none = false ∧
      isEdgeAttrMatch none none = false ∧
      (isEdgeAttrMatch (some m) (some h) = true ↔
        (m ≠ [] ∧ h ≠ [] ∧
          ((aggregateEdgeLabels m).1 = [] ∨
            ∃ t ∈ (aggregateEdgeLabels m).1, t ∈ (aggregateEdgeLabels h).1) ∧
          ∀ p ∈ (aggregateEdgeLabels m).2,
            ∃ q, (aggregateEdgeLabels h).2.find? (fun r => r.1 == p.1) = some q ∧
              dictEq q.2 p.2 = true)) := by
  refine ⟨rfl, rfl, rfl, ?_⟩
  show (if m.isEmpty || h.isEmpty then false
    else
      if !(aggregateEdgeLabels m).1.isEmpty &&
          !((aggregateEdgeLabels m).1.any fun t => (aggregateEdgeLabels h).1.contains t) then
        false
      else
        (aggregateEdgeLabels m).2.all fun p =>
          match (aggregateEdgeLabels h).2.find? (fun q => q.1 == p.1) with
          | some q => dictEq q.2 p.2
          | none => false) = true ↔ _
  by_cases hm : m.isEmpty
  · have hme : m = [] := List.isEmpty_iff.mp hm
    simp [hm, hme]
  · by_cases hh : h.isEmpty
    · have hhe : h = [] := List.isEmpty_iff.mp hh
      simp [hm, hh, hhe]
    · have hmne : m ≠ [] := fun e => hm (by simp [e])
      have hhne : h ≠ [] := fun e => hh (by simp [e])
      have hmf : m.isEmpty = false := Bool.eq_false_iff.mpr hm
      have hhf : h.isEmpty = false := Bool.eq_false_iff.mpr hh
      rw [hmf, hhf]
      simp only [Bool.or_self, Bool.false_eq_true, if_false]
      by_cases hlab : (!(aggregateEdgeLabels m).1.isEmpty &&
          !((aggregateEdgeLabels m).1.any fun t => (aggregateEdgeLabels h).1.contains t)) = true
      · rw [if_pos hlab]
        have hne : (aggregateEdgeLabels m).1.isEmpty = false := by
          have h1 := ((Bool.and_eq_true _ _).mp hlab).1
          simpa using h1
        have hnint : ((aggregateEdgeLabels m).1.any
            fun t => (aggregateEdgeLabels h).1.contains t) = false := by
          have h1 := ((Bool.and_eq_true _ _).mp hlab).2
          simpa using h1
        constructor
        · intro hfalse; cases hfalse
        · rintro ⟨_, _, (hemp | ⟨t, htm, hth⟩), _⟩
          · rw [hemp] at hne; simp at hne
          · rw [List.any_eq_false] at hnint
            have h2 := hnint t htm
            simp only [Bool.not_eq_true] at h2
            exact absurd (by simpa using hth) (by simpa using h2)
      · rw [if_neg hlab]
        have hlabp : (aggregateEdgeLabels m).1 = [] ∨
            ∃ t ∈ (aggregateEdgeLabels m).1, t ∈ (aggregateEdgeLabels h).1 := by
          by_cases he2 : (aggregateEdgeLabels m).1.isEmpty
          · exact Or.inl (List.isEmpty_iff.mp he2)
          · have he2f : (aggregateEdgeLabels m).1.isEmpty = false := Bool.eq_false_iff.mpr he2
            have h3 : ((aggregateEdgeLabels m).1.any
                fun t => (aggregateEdgeLabels h).1.contains t) = true := by
              by_contra h4
              have h4f : ((aggregateEdgeLabels m).1.any
                  fun t => (aggregateEdgeLabels h).1.contains t) = false :=
                Bool.eq_false_iff.mpr h4
              apply hlab
              rw [he2f, h4f]
              rfl
            rw [List.any_eq_true] at h3
            obtain ⟨t, htm, hc⟩ := h3
            exact Or.inr ⟨t, htm, by simpa using hc⟩
        rw [List.all_eq_true]
        constructor
        · intro H
          refine ⟨hmne, hhne, hlabp, ?_⟩
          intro p hp
          have h5 := H p hp
          cases hfind : (aggregateEdgeLabels h).2.find? (fun r => r.1 == p.1) with
          | none => rw [hfind] at h5; cases h5
          | some q =>
            rw [hfind] at h5
            exact ⟨q, rfl, h5⟩
        · rintro ⟨_, _, _, H⟩ p hp
          obtain ⟨q, hq, hd⟩ := H p hp
          rw [hq]
          exact hd

/-! Hop cap (claim C4). -/

/-- The engine default maximum hop bound, the transformer field max_hop. -/
def engineMaxHop : Nat := 100

/-- Shallow embedding of the hop-token handling in edge_match (src/
grandcypher/iinit, lines 1150 to 1153): the MIN_HOP token value is taken as
written, while the MAX_HOP token value is stored as the written value plus
one, an exclusive bound. -/
def edgeMatchHops (minTok maxTok : Option Nat) : Option Nat × Option Nat :=
  (minTok, maxTok.map (fun n => n + 1))

/-- Shallow embedding of the hop handling in match_clause (src/grandcypher/
iinit, lines 1214 to 1218): default a missing minimum to one and a missing
maximum to minimum plus one, then fail when the stored maximum exceeds the
engine cap. -/
def matchClauseHopCheck (minh maxh : Option Nat) : Except String (Nat × Nat) :=
  let minh2 := minh.getD 1
  let maxh2 := maxh.getD (minh2 + 1)
  if maxh2 > engineMaxHop then .error "max hop is caped at 100" else .ok (minh2, maxh2)

/-- Whether a query written with the hop range star min..max is rejected by
the hop cap: the edge_match token translation composed with the match_clause
check. -/
def hopCapRejects (minTok maxTok : Nat) : Bool :=
  match matchClauseHopCheck (edgeMatchHops (some minTok) (some maxTok)).1
      (edgeMatchHops (some minTok) (some maxTok)).2 with
  | .error _ => true
  | .ok _ => false

/-- C4 counterexample: the claim accepts every written maximum of at most
100, but a query written with maximum exactly 100 is rejected, because the
stored exclusive bound 101 is compared against the cap. -/
theorem C4_counterexample :
    hopCapRejects 1 100 = true ∧ (100 : Nat) ≤ 100 := by
  constructor
  · rfl
  · exact le_refl 100

/-- C4 (amended): a query with the hop range star min..max is rejected by
the hop cap exactly when the written maximum is at least 100; every written
maximum above 100 fails and every written maximum of at most 99 passes. -/
theorem C4_hop_cap (minTok maxTok : Nat) :
    hopCapRejects minTok maxTok = true ↔ 100 ≤ maxTok := by
  have hstep : hopCapRejects minTok maxTok =
      if maxTok + 1 > 100 then true else false := by
    unfold hopCapRejects matchClauseHopCheck edgeMatchHops engineMaxHop
    by_cases hgt : maxTok + 1 > 100
    · simp [hgt]
    · simp [hgt]
  rw [hstep]
  constructor
  · intro ht
    by_contra hlt
    rw [if_neg (by omega)] at ht
    cases ht
  · intro hge
    rw [if_pos (by omega)]

/-! DISTINCT with ORDER BY (claim C7). -/

/-- A RETURN item: a plain entity (variable or dotted attribute path) or an
aggregation call, each with an optional alias. -/
inductive ReturnItem where
  | entity (name : String) (al : Option String)
  | agg (func : String) (ent : String) (al : Option String)
deriving DecidableEq, Repr

/-- An ORDER BY item: a plain entity or an aggregation call. -/
inductive OrderItem where
  | entity (name : String)
  | agg (func : String) (ent : String)
deriving DecidableEq, Repr

/-- Shallow embedding of _format_aggregation_key: func(entity). -/
def formatAggregationKey (func ent : String) : String :=
  func ++ "(" ++ ent ++ ")"

/-- The return requests collected by return_clause (src/grandcypher/iinit,
lines 620 to 643): the plain entities in order; aggregation items are
recorded in the aggregate-functions list instead. -/
def returnRequests (items : List ReturnItem) : List String :=
  items.filterMap fun it =>
    match it with
    | .entity n _ => some n
    | .agg _ _ _ => none

/-- The aggregate functions collected by return_clause. -/
def aggregateFunctions (items : List ReturnItem) : List (String × String) :=
  items.filterMap fun it =>
    match it with
    | .entity _ _ => none
    | .agg f e _ => some (f, e)

/-- The order-by attributes collected by order_clause (src/grandcypher/
iinit, lines 676 to 698): for an aggregation item the inner entity is
recorded, for a plain item the field itself. -/
def orderByAttributes (items : List OrderItem) : List String :=
  items.map fun it =>
    match it with
    | .entity n => n
    | .agg _ e => e

/-- The return requests as they stand when the distinct step runs: the
returns method has appended the formatted key of every aggregation
(src/grandcypher/iinit, line 804). -/
def postAggReturnRequests (items : List ReturnItem) : List String :=
  returnRequests items ++
    (aggregateFunctions items).map fun fe => formatAggregationKey fe.1 fe.2

/-- The assertion guard of _apply_distinct (src/grandcypher/iinit, lines
901 to 904): when an ORDER BY is present, the order-by attributes must be a
subset of the return requests. -/
def distinctGuardPasses (ritems : List ReturnItem) (oitems : List OrderItem) : Bool :=
  (orderByAttributes oitems).all fun a => (postAggReturnRequests ritems).contains a

/-- Whether a DISTINCT query with the given RETURN and ORDER BY items fails
the validation in _apply_distinct. -/
def distinctOrderValidationFails (ritems : List ReturnItem) (oitems : List OrderItem) : Bool :=
  !oitems.isEmpty && !distinctGuardPasses ritems oitems

/-- C7 counterexample: under DISTINCT, ordering by the alias of a returned
aggregation fails the guard, because the guard checks the alias against the
post-aggregation return requests, which hold the formatted aggregation key
rather than the alias; the claim says aggregation aliases are accepted. -/
theorem C7_counterexample :
    distinctOrderValidationFails
        [ReturnItem.entity "n.name" none, ReturnItem.agg "SUM" "r.value" (some "total")]
        [OrderItem.entity "total"] = true ∧
      ReturnItem.agg "SUM" "r.value" (some "total") ∈
        [ReturnItem.entity "n.name" none, ReturnItem.agg "SUM" "r.value" (some "total")] := by
  constructor
  · rfl
  · simp

/-- C7 (amended): when DISTINCT and an ORDER BY are present, the query fails
with a ValidationError exactly when some tracked order-by attribute (the
plain field, the alias name used, or the inner entity of an aggregation) is
not among the post-aggregation return requests; in particular an ORDER BY
over returned columns is accepted, while ordering by an aggregation alias
fails unless the tracked attribute happens to be a returned column. -/
theorem C7_distinct_order_guard (ritems : List ReturnItem) (oitems : List OrderItem) :
    distinctOrderValidationFails ritems oitems = true ↔
      (oitems ≠ [] ∧
        ∃ a ∈ orderByAttributes oitems, a ∉ postAggReturnRequests ritems) := by
  unfold distinctOrderValidationFails distinctGuardPasses
  rw [Bool.and_eq_true]
  constructor
  · rintro ⟨h1, h2⟩
    constructor
    · intro he
      rw [he] at h1
      simp at h1
    · have h2f : ((orderByAttributes oitems).all
          fun a => (postAggReturnRequests ritems).contains a) = false := by
        simpa using h2
      rw [List.all_eq_false] at h2f
      obtain ⟨a, ha, hc⟩ := h2f
      refine ⟨a, ha, ?_⟩
      intro hmem
      exact absurd (by simpa using hmem) (by simpa using hc)
  · rintro ⟨h1, a, ha, hna⟩
    constructor
    · simpa using h1
    · have hallf : ((orderByAttributes oitems).all
          fun a => (postAggReturnRequests ritems).contains a) = false := by
        rw [List.all_eq_false]
        refine ⟨a, ha, ?_⟩
        simpa using hna
      rw [hallf]
      rfl

/-! Superset elimination in the hinter (claim C8). -/

/-- A hint: a partial binding from motif variable names to host node ids,
embedded as an association list standing for a Python dict. -/
abbrev Hint := List (String × String)

/-- Dictionary lookup in a hint. -/
def hget (h : Hint) (k : String) : Option String :=
  (h.find? (fun p => p.1 == k)).map Prod.snd

/-- Shallow embedding of Hinter._is_subsumed (src/grandcypher/hinter.py,
lines 40 to 45): small is contained in big when every key of small maps in
big to the same value. -/
def isSubsumed (small big : Hint) : Bool :=
  small.all fun kv =>
    match hget big kv.1 with
    | some v => v == kv.2
    | none => false

/-- Insert a hint into a list sorted by ascending size. -/
def insortBySize (x : Hint) : List Hint → List Hint
  | [] => [x]
  | y :: ys => if x.length ≤ y.length then x :: y :: ys else y :: insortBySize x ys

/-- Embedding of the Python sorted builtin with key len, as used by
eliminate_supersets: a sort of the hint list by ascending size.  The builtin
is a stable mergesort; the elimination loop relies only on the
ascending-size order, for which any sorted permutation behaves alike, so an
insertion sort is used. -/
def sortBySize (l : List Hint) : List Hint := l.foldr insortBySize []

/-- The accumulation loop of Hinter.eliminate_supersets (src/grandcypher/
hinter.py, lines 55 to 68): walk the sorted hints, keeping a hint unless
some already-kept hint is subsumed by it. -/
def elimLoop (result : List Hint) : List Hint → List Hint
  | [] => result
  | h :: rest =>
    if result.any (fun res => isSubsumed res h) then elimLoop result rest
    else elimLoop (result ++ [h]) rest

/-- Shallow embedding of Hinter.eliminate_supersets. -/
def eliminate_supersets (hints : List Hint) : List Hint :=
  elimLoop [] (sortBySize hints)

/-- Inserting preserves membership up to permutation. -/
theorem insortBySize_perm (x : Hint) (l : List Hint) :
    List.Perm (insortBySize x l) (x :: l) := by
  induction l with
  | nil => rfl
  | cons y ys ih =>
    by_cases hle : x.length ≤ y.length
    · simp [insortBySize, hle]
    · simp only [insortBySize, hle, if_false]
      exact List.Perm.trans (List.Perm.cons y ih) (List.Perm.swap x y ys)

/-- The sort is a permutation of its input. -/
theorem sortBySize_perm (l : List Hint) : List.Perm (sortBySize l) l := by
  induction l with
  | nil => exact List.Perm.refl []
  | cons x xs ih =>
    exact List.Perm.trans (insortBySize_perm x (sortBySize xs)) (List.Perm.cons x ih)

/-- Inserting preserves the ascending-size ordering. -/
theorem insortBySize_sorted (x : Hint) (l : List Hint)
    (hs : l.Pairwise (fun a b => a.length ≤ b.length)) :
    (insortBySize x l).Pairwise (fun a b => a.length ≤ b.length) := by
  induction l with
  | nil => simp [insortBySize]
  | cons y ys ih =>
    rw [List.pairwise_cons] at hs
    obtain ⟨hy, hys⟩ := hs
    by_cases hle : x.length ≤ y.length
    · simp only [insortBySize, hle, if_true]
      rw [List.pairwise_cons]
      refine ⟨?_, ?_⟩
      · intro b hb
        rcases List.mem_cons.mp hb with rfl | hb
        · exact hle
        · exact le_trans hle (hy b hb)
      · rw [List.pairwise_cons]
        exact ⟨hy, hys⟩
    · simp only [insortBySize, hle, if_false]
      rw [List.pairwise_cons]
      refine ⟨?_, ih hys⟩
      intro b hb
      have hb2 := (insortBySize_perm x ys).mem_iff.mp hb
      rcases List.mem_cons.mp hb2 with rfl | hb2
      · omega
      · exact hy b hb2

/-- The sort produces an ascending-size list. -/
theorem sortBySize_sorted (l : List Hint) :
    (sortBySize l).Pairwise (fun a b => a.length ≤ b.length) := by
  induction l with
  | nil => simp [sortBySize]
  | cons x xs ih => exact insortBySize_sorted x (sortBySize xs) ih

/-- A successful hint lookup exhibits a member pair. -/
theorem hget_mem (h : Hint) (k : String) (v : String) (hv : hget h k = some v) :
    (k, v) ∈ h := by
  unfold hget at hv
  cases hf : h.find? (fun p => p.1 == k) with
  | none => rw [hf] at hv; cases hv
  | some p =>
    rw [hf] at hv
    have hmem := List.mem_of_find?_eq_some hf
    have hpred := List.find?_some hf
    have hk : p.1 = k := by simpa using hpred
    have hv2 : p.2 = v := by simpa using hv
    have : p = (k, v) := Prod.ext hk hv2
    rw [this] at hmem
    exact hmem

/-- In a hint with unique keys, membership determines the lookup. -/
theorem hget_of_mem_nodup (h : Hint) (k : String) (v : String)
    (hnd : (h.map Prod.fst).Nodup) (hmem : (k, v) ∈ h) : hget h k = some v := by
  induction h with
  | nil => cases hmem
  | cons p rest ih =>
    rw [List.map_cons, List.nodup_cons] at hnd
    obtain ⟨hp, hrest⟩ := hnd
    rcases List.mem_cons.mp hmem with rfl | hmem2
    · unfold hget
      rw [List.find?_cons_of_pos _ (by simp)]
      rfl
    · have hkne : p.1 ≠ k := by
        intro he
        apply hp
        rw [he]
        exact List.mem_map_of_mem Prod.fst hmem2
      unfold hget
      rw [List.find?_cons_of_neg _ (by simpa using hkne)]
      exact ih hrest hmem2

/-- The keys of a subsumed hint are keys of the subsuming one. -/
theorem isSubsumed_keys_subset (small big : Hint) (hs : isSubsumed small big = true) :
    (small.map Prod.fst) ⊆ (big.map Prod.fst) := by
  intro k hk
  obtain ⟨kv, hkv, hfst⟩ := List.mem_map.mp hk
  unfold isSubsumed at hs
  rw [List.all_eq_true] at hs
  have h1 := hs kv hkv
  cases hf : hget big kv.1 with
  | none => rw [hf] at h1; cases h1
  | some v =>
    have := hget_mem big kv.1 v hf
    rw [← hfst]
    exact List.mem_map.mpr ⟨(kv.1, v), this, rfl⟩

/-- A subsumed hint with unique keys is no longer than the subsuming hint
with unique keys. -/
theorem isSubsumed_length_le (small big : Hint)
    (hnds : (small.map Prod.fst).Nodup) (hs : isSubsumed small big = true) :
    small.length ≤ big.length := by
  have hsub := isSubsumed_keys_subset small big hs
  have := (hnds.subperm hsub).length_le
  simpa using this

/-- Mutual subsumption from one direction plus equal length: a pair of
hints with unique keys where each is at least as long as a hint it subsumes
must be subsumed both ways. -/
theorem isSubsumed_antisymm (g h : Hint)
    (hndg : (g.map Prod.fst).Nodup) (hndh : (h.map Prod.fst).Nodup)
    (hgh : isSubsumed h g = true) (hlen : h.length ≥ g.length) :
    isSubsumed g h = true := by
  have hsub := isSubsumed_keys_subset h g hgh
  have hperm : List.Perm (h.map Prod.fst) (g.map Prod.fst) :=
    (hndh.subperm hsub).perm_of_length_le (by simpa using hlen)
  unfold isSubsumed
  rw [List.all_eq_true]
  intro kv hkv
  have hkmem : kv.1 ∈ h.map Prod.fst :=
    hperm.symm.mem_iff.mp (List.mem_map_of_mem Prod.fst hkv)
  obtain ⟨kw, hkw, hfst⟩ := List.mem_map.mp hkmem
  have hw : hget h kw.1 = some kw.2 := hget_of_mem_nodup h kw.1 kw.2 hndh hkw
  unfold isSubsumed at hgh
  rw [List.all_eq_true] at hgh
  have h2 := hgh kw hkw
  cases hf : hget g kw.1 with
  | none => rw [hf] at h2; cases h2
  | some v =>
    rw [hf] at h2
    have hveq : v = kw.2 := by simpa using h2
    have hkvg : (kw.1, v) ∈ g := hget_mem g kw.1 v hf
    have hkv2 : kv.2 = v := by
      have hkvg2 : hget g kw.1 = some kv.2 := by
        rw [hfst]
        exact hget_of_mem_nodup g kv.1 kv.2 hndg hkv
      rw [hf] at hkvg2
      exact (Option.some.injEq _ _ ▸ hkvg2).symm
    rw [hfst] at hw
    rw [hw]
    simp [hkv2, hveq]

/-- Elements already in the accumulator stay in the result of the loop. -/
theorem elimLoop_mem_mono (rest : List Hint) :
    ∀ res g, g ∈ res → g ∈ elimLoop res rest := by
  induction rest with
  | nil => intro res g hg; exact hg
  | cons h t ih =>
    intro res g hg
    unfold elimLoop
    by_cases hc : (res.any fun r => isSubsumed r h) = true
    · rw [if_pos hc]
      exact ih res g hg
    · rw [if_neg hc]
      exact ih (res ++ [h]) g (List.mem_append_left _ hg)

/-- Elements of the loop result come from the accumulator or the input. -/
theorem elimLoop_mem_src (rest : List Hint) :
    ∀ res g, g ∈ elimLoop res rest → g ∈ res ∨ g ∈ rest := by
  induction rest with
  | nil => intro res g hg; exact Or.inl hg
  | cons h t ih =>
    intro res g hg
    unfold elimLoop at hg
    by_cases hc : (res.any fun r => isSubsumed r h) = true
    · rw [if_pos hc] at hg
      rcases ih res g hg with hg2 | hg2
      · exact Or.inl hg2
      · exact Or.inr (List.mem_cons_of_mem h hg2)
    · rw [if_neg hc] at hg
      rcases ih (res ++ [h]) g hg with hg2 | hg2
      · rcases List.mem_append.mp hg2 with hg3 | hg3
        · exact Or.inl hg3
        · exact Or.inr (List.mem_cons.mpr (Or.inl (by simpa using hg3)))
      · exact Or.inr (List.mem_cons_of_mem h hg2)

/-- Invariant proof: the loop keeps the accumulator an antichain provided
the remaining input is sorted by size and dominates the accumulator. -/
theorem elimLoop_antichain (rest : List Hint) :
    ∀ res,
      (∀ x ∈ res, (x.map Prod.fst).Nodup) →
      (∀ x ∈ rest, (x.map Prod.fst).Nodup) →
      rest.Pairwise (fun a b => a.length ≤ b.length) →
      (∀ g ∈ res, ∀ h ∈ rest, g.length ≤ h.length) →
      (∀ g ∈ res, ∀ h ∈ res, g ≠ h → isSubsumed g h = false) →
      ∀ g ∈ elimLoop res rest, ∀ h ∈ elimLoop res rest, g ≠ h → isSubsumed g h = false := by
  induction rest with
  | nil =>
    intro res _ _ _ _ hanti g hg h hh
    exact hanti g hg h hh
  | cons e t ih =>
    intro res hndres hndrest hsorted hdom hanti
    rw [List.pairwise_cons] at hsorted
    obtain ⟨he, ht⟩ := hsorted
    unfold elimLoop
    by_cases hc : (res.any fun r => isSubsumed r e) = true
    · rw [if_pos hc]
      exact ih res hndres (fun x hx => hndrest x (List.mem_cons_of_mem e hx)) ht
        (fun g hg h hh => hdom g hg h (List.mem_cons_of_mem e hh)) hanti
    · rw [if_neg hc]
      have hcf : (res.any fun r => isSubsumed r e) = false := Bool.eq_false_iff.mpr hc
      rw [List.any_eq_false] at hcf
      apply ih (res ++ [e])
      · intro x hx
        rcases List.mem_append.mp hx with hx2 | hx2
        · exact hndres x hx2
        · have : x = e := by simpa using hx2
          rw [this]
          exact hndrest e (List.mem_cons_self e t)
      · intro x hx
        exact hndrest x (List.mem_cons_of_mem e hx)
      · exact ht
      · intro g hg h hh
        rcases List.mem_append.mp hg with hg2 | hg2
        · exact hdom g hg2 h (List.mem_cons_of_mem e hh)
        · have : g = e := by simpa using hg2
          rw [this]
          exact he h hh
      · intro g hg h hh hne
        rcases List.mem_append.mp hg with hg2 | hg2
        · rcases List.mem_append.mp hh with hh2 | hh2
          · exact hanti g hg2 h hh2 hne
          · have hhe : h = e := by simpa using hh2
            rw [hhe]
            exact Bool.eq_false_iff.mpr (hcf g hg2)
        · have hge : g = e := by simpa using hg2
          rcases List.mem_append.mp hh with hh2 | hh2
          · by_contra hcon
            have hcon2 : isSubsumed g h = true := by
              cases hb : isSubsumed g h
              · exact absurd hb hcon
              · rfl
            have hlen1 : h.length ≤ g.length := by
              rw [hge]
              exact hdom h hh2 e (List.mem_cons_self e t)
            have hndg : (g.map Prod.fst).Nodup := by
              rw [hge]; exact hndrest e (List.mem_cons_self e t)
            have hndh : (h.map Prod.fst).Nodup := hndres h hh2
            have hlen2 : g.length ≤ h.length :=
              isSubsumed_length_le g h hndg hcon2
            have hback : isSubsumed h g = true :=
              isSubsumed_antisymm h g hndh hndg hcon2 (by omega)
            have h9 := Bool.eq_false_iff.mpr (hcf h hh2)
            rw [← hge] at h9
            rw [h9] at hback
            cases hback
          · have hhe : h = e := by simpa using hh2
            exact absurd (hge.trans hhe.symm) hne

/-- Completeness of the loop: a hint of the input with no strict subsumer
in the final result is kept. -/
theorem elimLoop_complete (rest : List Hint) :
    ∀ res h, (h ∈ res ∨ h ∈ rest) →
      (∀ g ∈ elimLoop res rest, g ≠ h → isSubsumed g h = false) →
      h ∈ elimLoop res rest := by
  induction rest with
  | nil =>
    intro res h hsrc _
    rcases hsrc with hs | hs
    · exact hs
    · cases hs
  | cons e t ih =>
    intro res h hsrc hnosub
    unfold elimLoop at hnosub ⊢
    by_cases hc : (res.any fun r => isSubsumed r e) = true
    · rw [if_pos hc] at hnosub ⊢
      rcases hsrc with hs | hs
      · exact ih res h (Or.inl hs) hnosub
      · rcases List.mem_cons.mp hs with he2 | hs2
        · rw [List.any_eq_true] at hc
          obtain ⟨g0, hg0, hsub0⟩ := hc
          have hg0final : g0 ∈ elimLoop res t := elimLoop_mem_mono t res g0 hg0
          by_cases hge : g0 = h
          · rw [hge] at hg0
            exact ih res h (Or.inl hg0) hnosub
          · have h8 := hnosub g0 hg0final hge
            rw [← he2] at hsub0
            rw [h8] at hsub0
            cases hsub0
        · exact ih res h (Or.inr hs2) hnosub
    · rw [if_neg hc] at hnosub ⊢
      rcases hsrc with hs | hs
      · exact ih (res ++ [e]) h (Or.inl (List.mem_append_left _ hs)) hnosub
      · rcases List.mem_cons.mp hs with he2 | hs2
        · exact ih (res ++ [e]) h
            (Or.inl (List.mem_append_right _ (by simp [he2]))) hnosub
        · exact ih (res ++ [e]) h (Or.inr hs2) hnosub

/-- C8: for hint dictionaries with unique keys, eliminate_supersets returns
hints drawn from the input, the result is an antichain under key-value
containment (no returned hint is contained in a different returned hint),
and a hint of the input is kept exactly when no kept hint other than itself
is contained in it (smallest hints win). -/
theorem C8_eliminate_supersets (hints : List Hint)
    (hwf : ∀ h ∈ hints, (h.map Prod.fst).Nodup) :
    (∀ h ∈ eliminate_supersets hints, h ∈ hints) ∧
      (∀ g ∈ eliminate_supersets hints, ∀ h ∈ eliminate_supersets hints,
        g ≠ h → isSubsumed g h = false) ∧
      (∀ h, h ∈ eliminate_supersets hints ↔
        (h ∈ hints ∧ ∀ g ∈ eliminate_supersets hints, g ≠ h → isSubsumed g h = false)) := by
  have hperm := sortBySize_perm hints
  have hsorted := sortBySize_sorted hints
  have hmemsrc : ∀ h ∈ eliminate_supersets hints, h ∈ hints := by
    intro h hh
    rcases elimLoop_mem_src (sortBySize hints) [] h hh with h2 | h2
    · cases h2
    · exact hperm.mem_iff.mp h2
  have hanti : ∀ g ∈ eliminate_supersets hints, ∀ h ∈ eliminate_supersets hints,
      g ≠ h → isSubsumed g h = false := by
    apply elimLoop_antichain (sortBySize hints) []
    · intro x hx; cases hx
    · intro x hx; exact hwf x (hperm.mem_iff.mp hx)
    · exact hsorted
    · intro g hg; cases hg
    · intro g hg; cases hg
  refine ⟨hmemsrc, hanti, ?_⟩
  intro h
  constructor
  · intro hh
    exact ⟨hmemsrc h hh, fun g hg => hanti g hg h hh⟩
  · rintro ⟨hmem, hcond⟩
    exact elimLoop_complete (sortBySize hints) [] h
      (Or.inr (hperm.mem_iff.mpr hmem)) hcond

/-- C8 witness: the theorem applied to a concrete hint list, including a
duplicate-free key check discharged by evaluation. -/
theorem C8_eliminate_supersets_witness :
    (∀ h ∈ [[("A", "1")], [("B", "2")], [("A", "1"), ("B", "2")]],
        ((h : Hint).map Prod.fst).Nodup) ∧
      ((∀ h ∈ eliminate_supersets [[("A", "1")], [("B", "2")], [("A", "1"), ("B", "2")]],
          h ∈ [[("A", "1")], [("B", "2")], [("A", "1"), ("B", "2")]]) ∧
        (∀ g ∈ eliminate_supersets [[("A", "1")], [("B", "2")], [("A", "1"), ("B", "2")]],
          ∀ h ∈ eliminate_supersets [[("A", "1")], [("B", "2")], [("A", "1"), ("B", "2")]],
          g ≠ h → isSubsumed g h = false) ∧
        (∀ h, h ∈ eliminate_supersets [[("A", "1")], [("B", "2")], [("A", "1"), ("B", "2")]] ↔
          (h ∈ [[("A", "1")], [("B", "2")], [("A", "1"), ("B", "2")]] ∧
            ∀ g ∈ eliminate_supersets [[("A", "1")], [("B", "2")], [("A", "1"), ("B", "2")]],
            g ≠ h → isSubsumed g h = false))) :=
  ⟨by decide, C8_eliminate_supersets _ (by decide)⟩

/-! Hop expansion (claim C3).  Node names are kept abstract: the source
uses strings with random fresh tokens; the embedding takes the fresh-name
supply as a parameter. -/

/-- One expanded branch for a motif edge: the nodes explicitly added, the
chain edges added (each carrying the copied edge-label requirement) and the
path tuple recorded for the original edge in the edge-hop map. -/
structure HopBranch (α : Type) where
  nodes : List α
  chain : List ((α × α) × Option (List String))
  path : List α
deriving DecidableEq, Repr

/-- The per-length loop of _edge_hop_motifs (src/grandcypher/iinit, lines
1099 to 1108): each iteration builds the chain u, hops, v, labels every
chain edge with the edge-label requirement, records the path tuple, and
appends one more fresh intermediate name for the next iteration. -/
def hopExpandLoop {α : Type} (u v : α) (ty : Option (List String)) (fresh : Nat → α) :
    List α → Nat → Nat → List (HopBranch α)
  | _, _, 0 => []
  | hops, c, n + 1 =>
    { nodes := [u, v],
      chain := ((u :: hops ++ [v]).zip (hops ++ [v])).map (fun e => (e, ty)),
      path := u :: hops ++ [v] } ::
      hopExpandLoop u v ty fresh (hops ++ [fresh c]) (c + 1) n

/-- Shallow embedding of the per-edge expansion of _edge_hop_motifs (src/
grandcypher/iinit, lines 1091 to 1108) for an edge from u to v with stored
bounds min_hop and max_hop (the latter exclusive) and edge-label
requirement: when min_hop is zero, a branch holding only the source with
path-map entry u, u; the initial hop list holds min_hop minus one fresh
names; then one branch per loop iteration from max of min_hop and one up to
the exclusive bound. -/
def edgeHopBranches {α : Type} (u v : α) (minHop maxHop : Nat) (ty : Option (List String))
    (fresh : Nat → α) : List (HopBranch α) :=
  (if minHop = 0 then [{ nodes := [u], chain := [], path := [u, u] }] else []) ++
    hopExpandLoop u v ty fresh ((List.range (minHop - 1)).map fresh) (minHop - 1)
      (maxHop - max minHop 1)

/-- Shallow embedding of _product_motifs (src/grandcypher/iinit, lines 1112
to 1126), the motif-union operation kept abstract as a merge function: for
each accumulated motif and each new branch, in that nesting order, append
the merge of the two. -/
def productMotifs {β : Type} (merge : β → β → β) (ms bs : List β) : List β :=
  ms.flatMap (fun a => bs.map (fun b => merge a b))

/-- The edge loop of _edge_hop_motifs: fold the per-edge branch lists into
the accumulated motif list through the product, starting from the initial
isolated-nodes motif. -/
def edgeHopFold {β : Type} (merge : β → β → β) (init : β) (branchLists : List (List β)) :
    List β :=
  branchLists.foldl (fun acc bs => productMotifs merge acc bs) [init]

/-- All ways of choosing one branch per edge, first edge outermost. -/
def choices {β : Type} : List (List β) → List (List β)
  | [] => [[]]
  | l :: ls => l.flatMap (fun x => (choices ls).map (fun ch => x :: ch))

/-- Closed form of the per-length loop: when the hop list holds the first m
fresh names, iteration i emits the chain with the first m plus i fresh
names as intermediates. -/
theorem hopExpandLoop_closed {α : Type} (u v : α) (ty : Option (List String))
    (fresh : Nat → α) :
    ∀ (n m : Nat),
      hopExpandLoop u v ty fresh ((List.range m).map fresh) m n =
        (List.range n).map (fun i =>
          { nodes := [u, v],
            chain := (((u :: (List.range (m + i)).map fresh ++ [v]).zip
              ((List.range (m + i)).map fresh ++ [v])).map (fun e => (e, ty))),
            path := u :: (List.range (m + i)).map fresh ++ [v] }) := by
  intro n
  induction n with
  | zero => intro m; rfl
  | succ n ih =>
    intro m
    have hr : (List.range m).map fresh ++ [fresh m] = (List.range (m + 1)).map fresh := by
      rw [List.range_succ, List.map_append]
      rfl
    show _ :: hopExpandLoop u v ty fresh ((List.range m).map fresh ++ [fresh m]) (m + 1) n = _
    rw [hr, ih (m + 1)]
    rw [List.range_succ_eq_map, List.map_cons, List.map_map]
    have hhead : (⟨[u, v],
        ((u :: (List.range m).map fresh ++ [v]).zip ((List.range m).map fresh ++ [v])).map
          (fun e => (e, ty)),
        u :: (List.range m).map fresh ++ [v]⟩ : HopBranch α) =
        { nodes := [u, v],
          chain := (((u :: (List.range (m + 0)).map fresh ++ [v]).zip
            ((List.range (m + 0)).map fresh ++ [v])).map (fun e => (e, ty))),
          path := u :: (List.range (m + 0)).map fresh ++ [v] } := by
      rfl
    rw [hhead]
    congr 1
    apply List.map_congr_left
    intro i _
    have harith : m + 1 + i = m + (i + 1) := by omega
    simp only [Function.comp]
    rw [harith]

/-- The product fold is the Cartesian product of the per-edge branch lists:
each result is the fold of the merge over one choice of branch per edge,
first edge outermost. -/
theorem edgeHopFold_eq_choices {β : Type} (merge : β → β → β) (init : β)
    (branchLists : List (List β)) :
    edgeHopFold merge init branchLists =
      (choices branchLists).map (fun ch => ch.foldl merge init) := by
  suffices hgen : ∀ (ls : List (List β)) (A : List β),
      ls.foldl (fun acc bs => productMotifs merge acc bs) A =
        A.flatMap (fun a => (choices ls).map (fun ch => ch.foldl merge a)) by
    rw [edgeHopFold, hgen]
    simp [choices]
  intro ls
  induction ls with
  | nil =>
    intro A
    simp [choices]
  | cons l ls ih =>
    intro A
    rw [List.foldl_cons, ih]
    show (productMotifs merge A l).flatMap _ = _
    unfold productMotifs
    rw [List.flatMap_assoc]
    show A.flatMap _ = A.flatMap _
    apply congrArg
    funext a
    rw [List.flatMap_map]
    show l.flatMap _ = (l.flatMap _).map _
    rw [List.map_flatMap]
    apply congrArg
    funext x
    rw [List.map_map]
    rfl

/-- C3: for a variable-length edge written star min..max within the cap and
stored as the bounds min and max plus one, the per-edge expansion is a
zero-hop branch (exactly when min is zero, holding only the source and
recording the path tuple u, u) followed by one branch per concrete length k
from max of min and one up to max inclusive, in that order; each such
branch records a path tuple of length k plus one consisting of u, then k
minus one fresh pairwise-distinct intermediate names, then v, adds exactly
the endpoint nodes, and labels every chain edge of the path with the copied
edge-label requirement; and the full expansion list of a motif is the
Cartesian product of the per-edge branch lists, merged in order. -/
theorem C3_edge_hop_motifs {α : Type} [DecidableEq α] (u v : α) (minW maxW : Nat)
    (ty : Option (List String)) (fresh : Nat → α)
    (hcap : maxW ≤ 100) (hinj : Function.Injective fresh)
    (hfu : ∀ n, fresh n ≠ u) (hfv : ∀ n, fresh n ≠ v) :
    ∃ nz : List (HopBranch α),
      edgeHopBranches u v minW (maxW + 1) ty fresh =
          (if minW = 0 then [{ nodes := [u], chain := [], path := [u, u] }] else []) ++ nz ∧
        nz.map (fun b => b.path.length) =
          (List.range (maxW + 1 - max minW 1)).map (fun i => max minW 1 + i + 1) ∧
        (∀ b ∈ nz, ∃ mids : List α,
          b.path = u :: mids ++ [v] ∧
            mids.length + 2 = b.path.length ∧
            mids.Nodup ∧ u ∉ mids ∧ v ∉ mids ∧
            b.nodes = [u, v] ∧
            b.chain = (b.path.zip b.path.tail).map (fun e => (e, ty))) ∧
        (∀ (β : Type) (merge : β → β → β) (init : β) (branchLists : List (List β)),
          edgeHopFold merge init branchLists =
            (choices branchLists).map (fun ch => ch.foldl merge init)) := by
  refine ⟨hopExpandLoop u v ty fresh ((List.range (minW - 1)).map fresh) (minW - 1)
    (maxW + 1 - max minW 1), rfl, ?_, ?_, ?_⟩
  · rw [hopExpandLoop_closed u v ty fresh (maxW + 1 - max minW 1) (minW - 1)]
    rw [List.map_map]
    apply List.map_congr_left
    intro i _
    simp only [Function.comp]
    show (u :: (List.range (minW - 1 + i)).map fresh ++ [v]).length = max minW 1 + i + 1
    simp only [List.length_cons, List.length_append, List.length_map, List.length_range,
      List.length_nil]
    omega
  · intro b hb
    rw [hopExpandLoop_closed u v ty fresh (maxW + 1 - max minW 1) (minW - 1)] at hb
    obtain ⟨i, hi, hbeq⟩ := List.mem_map.mp hb
    refine ⟨(List.range (minW - 1 + i)).map fresh, ?_, ?_, ?_, ?_, ?_, ?_, ?_⟩
    · rw [← hbeq]
    · rw [← hbeq]
      simp only [List.length_cons, List.length_append, List.length_map, List.length_range,
        List.length_nil]
    · exact (List.nodup_range _).map hinj
    · intro hu
      obtain ⟨n, _, hn⟩ := List.mem_map.mp hu
      exact hfu n hn
    · intro hv2
      obtain ⟨n, _, hn⟩ := List.mem_map.mp hv2
      exact hfv n hn
    · rw [← hbeq]
    · rw [← hbeq]
      rfl
  · intro β merge init branchLists
    exact edgeHopFold_eq_choices merge init branchLists

/-- C3 witness: the theorem applied to a concrete edge over natural-number
node names with min zero, max two and the successor-based fresh supply. -/
theorem C3_edge_hop_motifs_witness :
    (2 : Nat) ≤ 100 ∧
      (∃ nz : List (HopBranch Nat),
        edgeHopBranches 0 1 0 (2 + 1) (some ["L"]) (fun n => n + 2) =
            (if (0 : Nat) = 0 then
              [{ nodes := [0], chain := [], path := [0, 0] }] else []) ++ nz ∧
          nz.map (fun b => b.path.length) =
            (List.range (2 + 1 - max 0 1)).map (fun i => max 0 1 + i + 1) ∧
          (∀ b ∈ nz, ∃ mids : List Nat,
            b.path = 0 :: mids ++ [1] ∧
              mids.length + 2 = b.path.length ∧
              mids.Nodup ∧ 0 ∉ mids ∧ 1 ∉ mids ∧
              b.nodes = [0, 1] ∧
              b.chain = (b.path.zip b.path.tail).map (fun e => (e, some ["L"]))) ∧
          (∀ (β : Type) (merge : β → β → β) (init : β) (branchLists : List (List β)),
            edgeHopFold merge init branchLists =
              (choices branchLists).map (fun ch => ch.foldl merge init))) :=
  ⟨by decide,
    C3_edge_hop_motifs 0 1 0 2 (some ["L"]) (fun n => n + 2) (by decide)
      (fun a b h => by simpa using h) (fun n => by simp) (fun n => by simp)⟩

/-! Attribute indexer (claims C9 and C10).  Entity ids are abstract; the
attribute values under one key form a linearly ordered type, with None for
a missing attribute. -/

/-- An indexer entity attribute dictionary for values of type a. -/
abbrev EntityAttrs (α : Type) := List (String × α)

/-- Python dict.get with None default, for indexer dictionaries. -/
def dget {α : Type} (d : EntityAttrs α) (k : String) : Option α :=
  (d.find? (fun p => p.1 == k)).map Prod.snd

/-- The comparison the Python sorted builtin performs between optional
attribute values: two present values compare by the order; any comparison
involving None raises TypeError. -/
def pyLt {α : Type} [LinearOrder α] : Option α → Option α → Except Unit Bool
  | some a, some b => .ok (decide (a < b))
  | _, _ => .error ()

/-- The total fragment of pyLt, meaningful when both sides are present. -/
def optLtB {α : Type} [LinearOrder α] : Option α → Option α → Bool
  | some a, some b => decide (a < b)
  | _, _ => false

/-- Except-valued insertion into a sorted list: keep every element that
compares strictly below the new one in front, place the new element at the
first position whose element does not; a failing comparison aborts, as the
exception would. -/
def insortE {β : Type} (lt : β → β → Except Unit Bool) (x : β) :
    List β → Except Unit (List β)
  | [] => .ok [x]
  | y :: ys => do
    let b ← lt y x
    if b then
      let r ← insortE lt x ys
      .ok (y :: r)
    else
      .ok (x :: y :: ys)

/-- Except-valued sort, embedding the Python sorted builtin with a key
function: a stable insertion sort that fails exactly when it compares
incomparable elements, as the builtin raises TypeError; on a two-element
list it performs exactly the one comparison the builtin performs. -/
def sortE {β : Type} (lt : β → β → Except Unit Bool) : List β → Except Unit (List β)
  | [] => .ok []
  | x :: xs => do
    let r ← sortE lt xs
    insortE lt x r

/-- Pure counterpart of insortE for a total comparator. -/
def insortP {β : Type} (ltB : β → β → Bool) (x : β) : List β → List β
  | [] => [x]
  | y :: ys => if ltB y x then y :: insortP ltB x ys else x :: y :: ys

/-- Pure counterpart of sortE for a total comparator. -/
def sortP {β : Type} (ltB : β → β → Bool) : List β → List β
  | [] => []
  | x :: xs => insortP ltB x (sortP ltB xs)

/-- Pure insertion is a permutation of consing. -/
theorem insortP_perm {β : Type} (ltB : β → β → Bool) (x : β) (l : List β) :
    List.Perm (insortP ltB x l) (x :: l) := by
  induction l with
  | nil => exact List.Perm.refl [x]
  | cons y ys ih =>
    by_cases hlt : ltB y x = true
    · simp only [insortP, hlt, if_true]
      exact List.Perm.trans (List.Perm.cons y ih) (List.Perm.swap x y ys)
    · have hf : ltB y x = false := Bool.eq_false_iff.mpr hlt
      simp only [insortP, hf, Bool.false_eq_true, if_false]
      exact List.Perm.refl _

/-- The pure sort is a permutation of its input. -/
theorem sortP_perm {β : Type} (ltB : β → β → Bool) (l : List β) :
    List.Perm (sortP ltB l) l := by
  induction l with
  | nil => exact List.Perm.refl []
  | cons x xs ih =>
    exact List.Perm.trans (insortP_perm ltB x (sortP ltB xs)) (List.Perm.cons x ih)

/-- The Except-valued insertion agrees with the pure one when every
comparison made answers. -/
theorem insortE_ok {β : Type} (lt : β → β → Except Unit Bool) (ltB : β → β → Bool)
    (x : β) (l : List β) (h : ∀ y ∈ l, lt y x = .ok (ltB y x)) :
    insortE lt x l = .ok (insortP ltB x l) := by
  induction l with
  | nil => rfl
  | cons y ys ih =>
    have hy := h y (List.mem_cons_self y ys)
    show (do
      let b ← lt y x
      if b then
        let r ← insortE lt x ys
        Except.ok (y :: r)
      else
        Except.ok (x :: y :: ys)) = _
    rw [hy]
    by_cases hlt : ltB y x = true
    · rw [hlt]
      rw [ih (fun z hz => h z (List.mem_cons_of_mem y hz))]
      simp only [insortP, hlt, if_true]
      rfl
    · have hf : ltB y x = false := Bool.eq_false_iff.mpr hlt
      rw [hf]
      simp only [insortP, hf, Bool.false_eq_true, if_false]
      rfl

/-- The Except-valued sort agrees with the pure one when every comparison
between list elements answers. -/
theorem sortE_ok {β : Type} (lt : β → β → Except Unit Bool) (ltB : β → β → Bool)
    (l : List β) (h : ∀ a ∈ l, ∀ b ∈ l, lt a b = .ok (ltB a b)) :
    sortE lt l = .ok (sortP ltB l) := by
  induction l with
  | nil => rfl
  | cons x xs ih =>
    show (do
      let r ← sortE lt xs
      insortE lt x r) = _
    rw [ih (fun a ha b hb => h a (List.mem_cons_of_mem x ha) b (List.mem_cons_of_mem x hb))]
    show insortE lt x (sortP ltB xs) = _
    rw [insortE_ok lt ltB x (sortP ltB xs) ?hmem]
    case hmem =>
      intro y hy
      have hy2 : y ∈ xs := (sortP_perm ltB xs).mem_iff.mp hy
      exact h y (List.mem_cons_of_mem x hy2) x (List.mem_cons_self x xs)
    rfl

/-- Pure insertion preserves sortedness, for a transitive and asymmetric
strict comparator on the elements involved. -/
theorem insortP_sorted {β : Type} (ltB : β → β → Bool) (x : β) (l : List β)
    (htrans : ∀ a ∈ x :: l, ∀ b ∈ x :: l, ∀ c ∈ x :: l,
      ltB a b = false → ltB b c = false → ltB a c = false)
    (hasymm : ∀ a ∈ x :: l, ∀ b ∈ x :: l, ltB a b = true → ltB b a = false)
    (hs : l.Pairwise (fun a b => ltB b a = false)) :
    (insortP ltB x l).Pairwise (fun a b => ltB b a = false) := by
  induction l with
  | nil => simp [insortP]
  | cons y ys ih =>
    rw [List.pairwise_cons] at hs
    obtain ⟨hy, hys⟩ := hs
    have hsub : ∀ z ∈ x :: ys, z ∈ x :: y :: ys := by
      intro z hz
      rcases List.mem_cons.mp hz with rfl | hz2
      · exact List.mem_cons_self _ _
      · exact List.mem_cons_of_mem _ (List.mem_cons_of_mem _ hz2)
    by_cases hlt : ltB y x = true
    · simp only [insortP, hlt, if_true]
      rw [List.pairwise_cons]
      constructor
      · intro b hb
        have hb2 := (insortP_perm ltB x ys).mem_iff.mp hb
        rcases List.mem_cons.mp hb2 with rfl | hb3
        · exact hasymm y (List.mem_cons_of_mem _ (List.mem_cons_self _ _))
            b (List.mem_cons_self _ _) hlt
        · exact hy b hb3
      · exact ih (fun a ha b hb c hc => htrans a (hsub a ha) b (hsub b hb) c (hsub c hc))
          (fun a ha b hb => hasymm a (hsub a ha) b (hsub b hb)) hys
    · have hf : ltB y x = false := Bool.eq_false_iff.mpr hlt
      simp only [insortP, hf, Bool.false_eq_true, if_false]
      rw [List.pairwise_cons]
      constructor
      · intro b hb
        rcases List.mem_cons.mp hb with rfl | hb2
        · exact hf
        · exact htrans b (List.mem_cons_of_mem _ (List.mem_cons_of_mem _ hb2))
            y (List.mem_cons_of_mem _ (List.mem_cons_self _ _))
            x (List.mem_cons_self _ _) (hy b hb2) hf
      · rw [List.pairwise_cons]
        exact ⟨hy, hys⟩

/-- The pure sort produces a sorted list, for a transitive and asymmetric
strict comparator on the list elements. -/
theorem sortP_sorted {β : Type} (ltB : β → β → Bool) (l : List β)
    (htrans : ∀ a ∈ l, ∀ b ∈ l, ∀ c ∈ l,
      ltB a b = false → ltB b c = false → ltB a c = false)
    (hasymm : ∀ a ∈ l, ∀ b ∈ l, ltB a b = true → ltB b a = false) :
    (sortP ltB l).Pairwise (fun a b => ltB b a = false) := by
  induction l with
  | nil => simp [sortP]
  | cons x xs ih =>
    show (insortP ltB x (sortP ltB xs)).Pairwise _
    have hsub : ∀ z ∈ x :: sortP ltB xs, z ∈ x :: xs := by
      intro z hz
      rcases List.mem_cons.mp hz with rfl | hz2
      · exact List.mem_cons_self _ _
      · exact List.mem_cons_of_mem _ ((sortP_perm ltB xs).mem_iff.mp hz2)
    apply insortP_sorted ltB x (sortP ltB xs)
    · intro a ha b hb c hc
      exact htrans a (hsub a ha) b (hsub b hb) c (hsub c hc)
    · intro a ha b hb
      exact hasymm a (hsub a ha) b (hsub b hb)
    · exact ih
        (fun a ha b hb c hc => htrans a (List.mem_cons_of_mem _ ha)
          b (List.mem_cons_of_mem _ hb) c (List.mem_cons_of_mem _ hc))
        (fun a ha b hb => hasymm a (List.mem_cons_of_mem _ ha) b (List.mem_cons_of_mem _ hb))

/-- The bisect_left insertion point of the stdlib on a sorted array: the
number of elements strictly below the probe. -/
def bisectLeft {α : Type} [LinearOrder α] (l : List (Option α)) (v : α) : Nat :=
  l.countP (fun e => optLtB e (some v))

/-- The bisect_right insertion point of the stdlib on a sorted array: the
number of elements not strictly above the probe. -/
def bisectRight {α : Type} [LinearOrder α] (l : List (Option α)) (v : α) : Nat :=
  l.countP (fun e => !optLtB (some v) e)

/-- IncrementIndexQuerier.lt (src/grandcypher/indexer.py, lines 26 to 30). -/
def incLt {ι α : Type} [LinearOrder α] (sids : List ι) (svals : List (Option α))
    (v : α) : List ι :=
  let idx := bisectLeft svals v
  if idx ≠ 0 then sids.take idx else []

/-- IncrementIndexQuerier.gt (lines 32 to 36). -/
def incGt {ι α : Type} [LinearOrder α] (sids : List ι) (svals : List (Option α))
    (v : α) : List ι :=
  let idx := bisectRight svals v
  if idx ≠ svals.length then sids.drop idx else []

/-- IncrementIndexQuerier.ge (lines 38 to 42). -/
def incGe {ι α : Type} [LinearOrder α] (sids : List ι) (svals : List (Option α))
    (v : α) : List ι :=
  let idx := bisectLeft svals v
  if idx ≠ svals.length then sids.drop idx else []

/-- IncrementIndexQuerier.le (lines 44 to 48). -/
def incLe {ι α : Type} [LinearOrder α] (sids : List ι) (svals : List (Option α))
    (v : α) : List ι :=
  let idx := bisectRight svals v
  if idx ≠ 0 then sids.take idx else []

/-- IncrementIndexQuerier.eq (lines 50 to 56): on a sorted array the
lo-offset call bisect_right with lo equal to bisect_left returns the global
bisect_right, which is used here. -/
def incEq {ι α : Type} [LinearOrder α] (sids : List ι) (svals : List (Option α))
    (v : α) : List ι :=
  let lo := bisectLeft svals v
  if lo = svals.length ∨ ¬(svals[lo]? = some (some v)) then []
  else (sids.take (bisectRight svals v)).drop lo

/-- IncrementIndexQuerier.ne (lines 58 to 65): the ids at the positions
outside the equal range, or all ids when the probe is absent. -/
def incNe {ι α : Type} [LinearOrder α] (sids : List ι) (svals : List (Option α))
    (v : α) : List ι :=
  let lo := bisectLeft svals v
  if lo = svals.length ∨ ¬(svals[lo]? = some (some v)) then sids
  else sids.take lo ++ sids.drop (bisectRight svals v)

/-- IncrementIndexQuerier.get_comparator (lines 67 to 80): dispatch on the
operator string; an unsupported operator raises. -/
def incComparator {ι α : Type} [LinearOrder α] (op : String)
    (sids : List ι) (svals : List (Option α)) : Option (α → List ι) :=
  if op = "<" then some (incLt sids svals)
  else if op = "<=" then some (incLe sids svals)
  else if op = ">" then some (incGt sids svals)
  else if op = ">=" then some (incGe sids svals)
  else if op = "==" ∨ op = "=" then some (incEq sids svals)
  else if op = "!=" ∨ op = "<>" then some (incNe sids svals)
  else none

/-- NoIndexQuerier.lt (src/grandcypher/indexer.py, lines 91 to 93): a
linear scan pairing ids with values, skipping None values. -/
def scanLt {ι α : Type} [LinearOrder α] (ids : List ι) (vals : List (Option α))
    (v : α) : List ι :=
  ((ids.zip vals).filter fun p =>
    match p.2 with
    | some x => decide (x < v)
    | none => false).map Prod.fst

/-- NoIndexQuerier.gt (lines 95 to 97). -/
def scanGt {ι α : Type} [LinearOrder α] (ids : List ι) (vals : List (Option α))
    (v : α) : List ι :=
  ((ids.zip vals).filter fun p =>
    match p.2 with
    | some x => decide (x > v)
    | none => false).map Prod.fst

/-- NoIndexQuerier.ge (lines 99 to 101). -/
def scanGe {ι α : Type} [LinearOrder α] (ids : List ι) (vals : List (Option α))
    (v : α) : List ι :=
  ((ids.zip vals).filter fun p =>
    match p.2 with
    | some x => decide (x ≥ v)
    | none => false).map Prod.fst

/-- NoIndexQuerier.le (lines 103 to 105). -/
def scanLe {ι α : Type} [LinearOrder α] (ids : List ι) (vals : List (Option α))
    (v : α) : List ι :=
  ((ids.zip vals).filter fun p =>
    match p.2 with
    | some x => decide (x ≤ v)
    | none => false).map Prod.fst

/-- NoIndexQuerier.eq (lines 107 to 109). -/
def scanEq {ι α : Type} [LinearOrder α] (ids : List ι) (vals : List (Option α))
    (v : α) : List ι :=
  ((ids.zip vals).filter fun p =>
    match p.2 with
    | some x => decide (x = v)
    | none => false).map Prod.fst

/-- NoIndexQuerier.ne (lines 111 to 113). -/
def scanNe {ι α : Type} [LinearOrder α] (ids : List ι) (vals : List (Option α))
    (v : α) : List ι :=
  ((ids.zip vals).filter fun p =>
    match p.2 with
    | some x => decide (x ≠ v)
    | none => false).map Prod.fst

/-- NoIndexQuerier.get_comparator (lines 115 to 128). -/
def scanComparator {ι α : Type} [LinearOrder α] (op : String)
    (ids : List ι) (vals : List (Option α)) : Option (α → List ι) :=
  if op = "<" then some (scanLt ids vals)
  else if op = "<=" then some (scanLe ids vals)
  else if op = ">" then some (scanGt ids vals)
  else if op = ">=" then some (scanGe ids vals)
  else if op = "==" ∨ op = "=" then some (scanEq ids vals)
  else if op = "!=" ∨ op = "<>" then some (scanNe ids vals)
  else none

/-- Shallow embedding of ArrayAttributeIndexer._make_index (src/grandcypher/
indexer.py, lines 170 to 173): sort the positions by attribute value and
permute the id and value arrays accordingly; embedded as the stable sort of
the id-value pairs by value, which is the same stable permutation.  The sort
raises whenever it compares a None with a present value. -/
def makeIndexE {ι α : Type} [LinearOrder α] (ids : List ι) (vals : List (Option α)) :
    Except Unit (List ι × List (Option α)) := do
  let sorted ← sortE (fun p q => pyLt p.2 q.2) (ids.zip vals)
  .ok (sorted.map Prod.fst, sorted.map Prod.snd)

/-- Shallow embedding of ArrayAttributeIndexer.create_indices (src/
grandcypher/indexer.py, lines 159 to 168) for a single key: extract the
values through a None-defaulting get and build the index arrays. -/
def createIndexForKey {ι α : Type} [LinearOrder α] (ids : List ι)
    (attrs : List (EntityAttrs α)) (key : String) :
    Except Unit (List ι × List (Option α)) :=
  makeIndexE ids (attrs.map (fun d => dget d key))

/-- In a list sorted by a key, taking as many elements as satisfy a
downward-closed predicate on the key yields exactly the elements that
satisfy it. -/
theorem sorted_take_countP {γ α : Type} [LinearOrder α] (f : γ → α) (p : α → Bool)
    (hdc : ∀ x y : α, p y = true → x ≤ y → p x = true) :
    ∀ l : List γ, l.Pairwise (fun a b => f a ≤ f b) →
      l.take (l.countP (fun g => p (f g))) = l.filter (fun g => p (f g)) := by
  intro l
  induction l with
  | nil => intro _; rfl
  | cons g gs ih =>
    intro hs
    rw [List.pairwise_cons] at hs
    obtain ⟨hg, hgs⟩ := hs
    rw [List.countP_cons, List.filter_cons]
    by_cases hp : p (f g) = true
    · simp only [hp, if_true]
      rw [List.take_succ_cons]
      rw [ih hgs]
    · have hpf : p (f g) = false := Bool.eq_false_iff.mpr hp
      have hall : ∀ b ∈ gs, p (f b) = false := by
        intro b hb
        cases hpb : p (f b) with
        | false => rfl
        | true => exact absurd (hdc (f g) (f b) hpb (hg b hb)) hp
      have hcount : gs.countP (fun g2 => p (f g2)) = 0 := by
        rw [List.countP_eq_zero]
        intro a ha
        simp [hall a ha]
      have hfil : gs.filter (fun g2 => p (f g2)) = [] := by
        rw [List.filter_eq_nil_iff]
        intro a ha
        simp [hall a ha]
      simp [hpf, hcount, hfil]

/-- In a list sorted by a key, dropping as many elements as satisfy a
downward-closed predicate on the key yields exactly the elements that do
not satisfy it. -/
theorem sorted_drop_countP {γ α : Type} [LinearOrder α] (f : γ → α) (p : α → Bool)
    (hdc : ∀ x y : α, p y = true → x ≤ y → p x = true) :
    ∀ l : List γ, l.Pairwise (fun a b => f a ≤ f b) →
      l.drop (l.countP (fun g => p (f g))) = l.filter (fun g => !p (f g)) := by
  intro l
  induction l with
  | nil => intro _; rfl
  | cons g gs ih =>
    intro hs
    rw [List.pairwise_cons] at hs
    obtain ⟨hg, hgs⟩ := hs
    rw [List.countP_cons, List.filter_cons]
    by_cases hp : p (f g) = true
    · simp only [hp, if_true, Bool.not_true, Bool.false_eq_true, if_false]
      rw [List.drop_succ_cons]
      rw [ih hgs]
    · have hpf : p (f g) = false := Bool.eq_false_iff.mpr hp
      have hall : ∀ b ∈ gs, p (f b) = false := by
        intro b hb
        cases hpb : p (f b) with
        | false => rfl
        | true => exact absurd (hdc (f g) (f b) hpb (hg b hb)) hp
      have hcount : gs.countP (fun g2 => p (f g2)) = 0 := by
        rw [List.countP_eq_zero]
        intro a ha
        simp [hall a ha]
      have hfil : gs.filter (fun g2 => !p (f g2)) = gs := by
        rw [List.filter_eq_self]
        intro a ha
        simp [hall a ha]
      simp [hpf, hcount, hfil]

/-- In a list sorted by a key, the elements with key not above the probe
are the elements with key strictly below followed by the elements with key
equal. -/
theorem sorted_filter_le_decomp {γ α : Type} [LinearOrder α] (f : γ → α) (v : α) :
    ∀ l : List γ, l.Pairwise (fun a b => f a ≤ f b) →
      l.filter (fun g => decide (f g ≤ v)) =
        l.filter (fun g => decide (f g < v)) ++ l.filter (fun g => decide (f g = v)) := by
  intro l
  induction l with
  | nil => intro _; rfl
  | cons g gs ih =>
    intro hs
    rw [List.pairwise_cons] at hs
    obtain ⟨hg, hgs⟩ := hs
    rcases lt_trichotomy (f g) v with hlt | heq | hgt
    · rw [List.filter_cons, List.filter_cons, List.filter_cons]
      simp only [decide_eq_true_eq]
      rw [if_pos (le_of_lt hlt), if_pos hlt, if_neg (ne_of_lt hlt)]
      rw [ih hgs]
      rfl
    · have hlt_nil : gs.filter (fun g2 => decide (f g2 < v)) = [] := by
        rw [List.filter_eq_nil_iff]
        intro a ha
        have h1 := hg a ha
        rw [heq] at h1
        simp only [decide_eq_true_eq]
        exact not_lt_of_ge h1
      have hle_eq : gs.filter (fun g2 => decide (f g2 ≤ v)) =
          gs.filter (fun g2 => decide (f g2 = v)) := by
        apply List.filter_congr
        intro a ha
        have h1 := hg a ha
        rw [heq] at h1
        by_cases h2 : f a = v
        · simp [h2]
        · have h3 : ¬(f a ≤ v) := fun h4 => h2 (le_antisymm h4 h1)
          simp [h2, h3]
      rw [List.filter_cons, List.filter_cons, List.filter_cons]
      simp only [decide_eq_true_eq]
      rw [if_pos (le_of_eq heq), if_neg (by rw [heq]; exact lt_irrefl v), if_pos heq]
      rw [hlt_nil, hle_eq]
      rfl
    · have hnil : ∀ (q : α → Bool), (∀ a : α, v < a → q a = false) →
          (g :: gs).filter (fun g2 => q (f g2)) = [] := by
        intro q hq
        rw [List.filter_eq_nil_iff]
        intro a ha
        rcases List.mem_cons.mp ha with rfl | ha2
        · simp [hq (f a) hgt]
        · have h1 := hg a ha2
          simp [hq (f a) (lt_of_lt_of_le hgt h1)]
      rw [hnil (fun x => decide (x ≤ v)) (fun a ha => by
          simp only [decide_eq_false_iff_not]
          exact not_le_of_gt ha),
        hnil (fun x => decide (x < v)) (fun a ha => by
          simp only [decide_eq_false_iff_not]
          exact lt_asymm ha),
        hnil (fun x => decide (x = v)) (fun a ha => by
          simp only [decide_eq_false_iff_not]
          exact (ne_of_gt ha))]
      rfl

/-- A list of optional values that are all present is the image of a list
of plain values. -/
theorem strip_somes {ι α : Type} :
    ∀ l : List (ι × Option α), (∀ p ∈ l, p.2.isSome = true) →
      ∃ core : List (ι × α), l = core.map (fun c => (c.1, some c.2)) := by
  intro l
  induction l with
  | nil => intro _; exact ⟨[], rfl⟩
  | cons p ps ih =>
    intro h
    obtain ⟨w, hw⟩ := Option.isSome_iff_exists.mp (h p (List.mem_cons_self p ps))
    obtain ⟨core, hcore⟩ := ih (fun q hq => h q (List.mem_cons_of_mem p hq))
    refine ⟨(p.1, w) :: core, ?_⟩
    rw [List.map_cons, ← hcore]
    have hp : p = (p.1, some w) := by
      rw [← hw]
    rw [← hp]

/-- Successful index construction for all-present values: the sorted arrays
are the projections of a core pair list that is a permutation of the
id-value pairing and ascending in the values. -/
theorem makeIndexE_ok {ι α : Type} [LinearOrder α] (ids : List ι)
    (vals : List (Option α)) (hall : ∀ w ∈ vals, w.isSome = true) :
    ∃ core : List (ι × α),
      makeIndexE ids vals = .ok (core.map Prod.fst, core.map (fun c => some c.2)) ∧
        List.Perm (ids.zip vals) (core.map (fun c => (c.1, some c.2))) ∧
        core.Pairwise (fun a b => a.2 ≤ b.2) := by
  have hallp : ∀ p ∈ ids.zip vals, p.2.isSome = true := by
    intro p hp
    have hp2 : (p.1, p.2) ∈ ids.zip vals := by
      rw [Prod.mk.eta]
      exact hp
    exact hall p.2 (List.of_mem_zip hp2).2
  have hok : sortE (fun p q => pyLt p.2 q.2) (ids.zip vals) =
      .ok (sortP (fun p q => optLtB p.2 q.2) (ids.zip vals)) := by
    apply sortE_ok
    intro a ha b hb
    obtain ⟨wa, hwa⟩ := Option.isSome_iff_exists.mp (hallp a ha)
    obtain ⟨wb, hwb⟩ := Option.isSome_iff_exists.mp (hallp b hb)
    rw [hwa, hwb]
    rfl
  have hsortedp := sortP_perm (fun p q => optLtB p.2 q.2) (ids.zip vals)
  have hallsorted : ∀ p ∈ sortP (fun p q => optLtB p.2 q.2) (ids.zip vals),
      p.2.isSome = true := fun p hp => hallp p (hsortedp.mem_iff.mp hp)
  obtain ⟨core, hcore⟩ := strip_somes _ hallsorted
  have hsorted : (sortP (fun p q => optLtB p.2 q.2) (ids.zip vals)).Pairwise
      (fun p q => optLtB q.2 p.2 = false) := by
    apply sortP_sorted
    · intro a ha b hb c hc h1 h2
      obtain ⟨wa, hwa⟩ := Option.isSome_iff_exists.mp (hallp a ha)
      obtain ⟨wb, hwb⟩ := Option.isSome_iff_exists.mp (hallp b hb)
      obtain ⟨wc, hwc⟩ := Option.isSome_iff_exists.mp (hallp c hc)
      rw [hwa, hwb] at h1
      rw [hwb, hwc] at h2
      rw [hwa, hwc]
      simp only [optLtB, decide_eq_false_iff_not, not_lt] at h1 h2 ⊢
      exact le_trans h2 h1
    · intro a ha b hb h1
      obtain ⟨wa, hwa⟩ := Option.isSome_iff_exists.mp (hallp a ha)
      obtain ⟨wb, hwb⟩ := Option.isSome_iff_exists.mp (hallp b hb)
      rw [hwa, hwb] at h1 ⊢
      simp only [optLtB, decide_eq_true_eq] at h1
      simp only [optLtB, decide_eq_false_iff_not, not_lt]
      exact le_of_lt h1
  refine ⟨core, ?_, ?_, ?_⟩
  · show (do
      let sorted ← sortE (fun p q : ι × Option α => pyLt p.2 q.2) (ids.zip vals)
      Except.ok (sorted.map Prod.fst, sorted.map Prod.snd)) = _
    rw [hok]
    show Except.ok _ = _
    rw [hcore, List.map_map, List.map_map]
    rfl
  · rw [← hcore]
    exact hsortedp.symm
  · rw [hcore] at hsorted
    rw [List.pairwise_map] at hsorted
    apply hsorted.imp
    intro a b h1
    simpa [optLtB, not_lt] using h1

/-- Membership in the first projection of a filtered pair list. -/
theorem mem_map_fst_filter {ι γ : Type} (l : List γ) (fst : γ → ι) (q : γ → Bool)
    (x : ι) :
    x ∈ (l.filter q).map fst ↔ ∃ c ∈ l, q c = true ∧ fst c = x := by
  rw [List.mem_map]
  constructor
  · rintro ⟨c, hc, hcx⟩
    rw [List.mem_filter] at hc
    exact ⟨c, hc.1, hc.2, hcx⟩
  · rintro ⟨c, hc, hq, hcx⟩
    exact ⟨c, List.mem_filter.mpr ⟨hc, hq⟩, hcx⟩

/-- Membership in a scan result through the core permutation. -/
theorem scan_mem_iff {ι α : Type} (pairs : List (ι × Option α)) (core : List (ι × α))
    (hperm : List.Perm pairs (core.map (fun c => (c.1, some c.2))))
    (pb : (ι × Option α) → Bool) (x : ι) :
    x ∈ (pairs.filter pb).map Prod.fst ↔
      ∃ c ∈ core, pb (c.1, some c.2) = true ∧ c.1 = x := by
  rw [mem_map_fst_filter]
  constructor
  · rintro ⟨p, hp, hq, hpx⟩
    have hp2 := hperm.mem_iff.mp hp
    obtain ⟨c, hc, hcp⟩ := List.mem_map.mp hp2
    refine ⟨c, hc, ?_, ?_⟩
    · rw [hcp]; exact hq
    · rw [← hpx, ← hcp]
  · rintro ⟨c, hc, hq, hcx⟩
    refine ⟨(c.1, some c.2), ?_, hq, hcx⟩
    exact hperm.mem_iff.mpr (List.mem_map.mpr ⟨c, hc, rfl⟩)

/-- The left bisection point over the projected value array counts the core
pairs strictly below the probe. -/
theorem bisectLeft_core {ι α : Type} [LinearOrder α] (core : List (ι × α)) (v : α) :
    bisectLeft (core.map (fun c => some c.2)) v =
      core.countP (fun c => decide (c.2 < v)) := by
  unfold bisectLeft
  rw [List.countP_map]
  rfl

/-- The right bisection point over the projected value array counts the
core pairs not above the probe. -/
theorem bisectRight_core {ι α : Type} [LinearOrder α] (core : List (ι × α)) (v : α) :
    bisectRight (core.map (fun c => some c.2)) v =
      core.countP (fun c => decide (c.2 ≤ v)) := by
  unfold bisectRight
  rw [List.countP_map]
  apply List.countP_congr
  intro c _
  show (!optLtB (some v) (some c.2)) = true ↔ decide (c.2 ≤ v) = true
  simp [optLtB, not_lt]

/-- The less-than predicate on values is downward closed. -/
theorem ltv_dc {α : Type} [LinearOrder α] (v : α) :
    ∀ x y : α, decide (y < v) = true → x ≤ y → decide (x < v) = true := by
  intro x y hy hxy
  simp only [decide_eq_true_eq] at hy ⊢
  exact lt_of_le_of_lt hxy hy

/-- The at-most predicate on values is downward closed. -/
theorem lev_dc {α : Type} [LinearOrder α] (v : α) :
    ∀ x y : α, decide (y ≤ v) = true → x ≤ y → decide (x ≤ v) = true := by
  intro x y hy hxy
  simp only [decide_eq_true_eq] at hy ⊢
  exact le_trans hxy hy

/-- Membership in the lt result of the increment querier over the sorted
core. -/
theorem incLt_mem {ι α : Type} [LinearOrder α] (core : List (ι × α)) (v : α) (x : ι)
    (hs : core.Pairwise (fun a b => a.2 ≤ b.2)) :
    x ∈ incLt (core.map Prod.fst) (core.map (fun c => some c.2)) v ↔
      ∃ c ∈ core, c.2 < v ∧ c.1 = x := by
  show x ∈ (if bisectLeft (core.map (fun c => some c.2)) v ≠ 0 then
    (core.map Prod.fst).take (bisectLeft (core.map (fun c => some c.2)) v) else []) ↔ _
  rw [bisectLeft_core]
  have hif : (if core.countP (fun c => decide (c.2 < v)) ≠ 0 then
      (core.map Prod.fst).take (core.countP (fun c => decide (c.2 < v))) else []) =
      (core.map Prod.fst).take (core.countP (fun c => decide (c.2 < v))) := by
    by_cases hz : core.countP (fun c => decide (c.2 < v)) = 0
    · rw [if_neg (by simpa using hz), hz, List.take_zero]
    · rw [if_pos hz]
  rw [hif, ← List.map_take,
    sorted_take_countP Prod.snd (fun w => decide (w < v)) (ltv_dc v) core hs,
    mem_map_fst_filter]
  simp

/-- Membership in the le result of the increment querier over the sorted
core. -/
theorem incLe_mem {ι α : Type} [LinearOrder α] (core : List (ι × α)) (v : α) (x : ι)
    (hs : core.Pairwise (fun a b => a.2 ≤ b.2)) :
    x ∈ incLe (core.map Prod.fst) (core.map (fun c => some c.2)) v ↔
      ∃ c ∈ core, c.2 ≤ v ∧ c.1 = x := by
  show x ∈ (if bisectRight (core.map (fun c => some c.2)) v ≠ 0 then
    (core.map Prod.fst).take (bisectRight (core.map (fun c => some c.2)) v) else []) ↔ _
  rw [bisectRight_core]
  have hif : (if core.countP (fun c => decide (c.2 ≤ v)) ≠ 0 then
      (core.map Prod.fst).take (core.countP (fun c => decide (c.2 ≤ v))) else []) =
      (core.map Prod.fst).take (core.countP (fun c => decide (c.2 ≤ v))) := by
    by_cases hz : core.countP (fun c => decide (c.2 ≤ v)) = 0
    · rw [if_neg (by simpa using hz), hz, List.take_zero]
    · rw [if_pos hz]
  rw [hif, ← List.map_take,
    sorted_take_countP Prod.snd (fun w => decide (w ≤ v)) (lev_dc v) core hs,
    mem_map_fst_filter]
  simp

/-- Membership in the gt result of the increment querier over the sorted
core. -/
theorem incGt_mem {ι α : Type} [LinearOrder α] (core : List (ι × α)) (v : α) (x : ι)
    (hs : core.Pairwise (fun a b => a.2 ≤ b.2)) :
    x ∈ incGt (core.map Prod.fst) (core.map (fun c => some c.2)) v ↔
      ∃ c ∈ core, v < c.2 ∧ c.1 = x := by
  show x ∈ (if bisectRight (core.map (fun c => some c.2)) v ≠
      (core.map (fun c => some c.2)).length then
    (core.map Prod.fst).drop (bisectRight (core.map (fun c => some c.2)) v) else []) ↔ _
  rw [bisectRight_core]
  have hlen : (core.map (fun c => some c.2)).length = core.length := List.length_map _ _
  have hif : (if core.countP (fun c => decide (c.2 ≤ v)) ≠
      (core.map (fun c => some c.2)).length then
      (core.map Prod.fst).drop (core.countP (fun c => decide (c.2 ≤ v))) else []) =
      (core.map Prod.fst).drop (core.countP (fun c => decide (c.2 ≤ v))) := by
    by_cases hz : core.countP (fun c => decide (c.2 ≤ v)) =
        (core.map (fun c => some c.2)).length
    · rw [if_neg (by simpa using hz), hz, hlen, ← List.length_map core Prod.fst,
        List.drop_length]
    · rw [if_pos hz]
  rw [hif, ← List.map_drop,
    sorted_drop_countP Prod.snd (fun w => decide (w ≤ v)) (lev_dc v) core hs,
    mem_map_fst_filter]
  simp [not_le]

/-- Membership in the ge result of the increment querier over the sorted
core. -/
theorem incGe_mem {ι α : Type} [LinearOrder α] (core : List (ι × α)) (v : α) (x : ι)
    (hs : core.Pairwise (fun a b => a.2 ≤ b.2)) :
    x ∈ incGe (core.map Prod.fst) (core.map (fun c => some c.2)) v ↔
      ∃ c ∈ core, v ≤ c.2 ∧ c.1 = x := by
  show x ∈ (if bisectLeft (core.map (fun c => some c.2)) v ≠
      (core.map (fun c => some c.2)).length then
    (core.map Prod.fst).drop (bisectLeft (core.map (fun c => some c.2)) v) else []) ↔ _
  rw [bisectLeft_core]
  have hlen : (core.map (fun c => some c.2)).length = core.length := List.length_map _ _
  have hif : (if core.countP (fun c => decide (c.2 < v)) ≠
      (core.map (fun c => some c.2)).length then
      (core.map Prod.fst).drop (core.countP (fun c => decide (c.2 < v))) else []) =
      (core.map Prod.fst).drop (core.countP (fun c => decide (c.2 < v))) := by
    by_cases hz : core.countP (fun c => decide (c.2 < v)) =
        (core.map (fun c => some c.2)).length
    · rw [if_neg (by simpa using hz), hz, hlen, ← List.length_map core Prod.fst,
        List.drop_length]
    · rw [if_pos hz]
  rw [hif, ← List.map_drop,
    sorted_drop_countP Prod.snd (fun w => decide (w < v)) (ltv_dc v) core hs,
    mem_map_fst_filter]
  simp [not_lt]

/-- The shared branch condition of the eq and ne increment queriers holds
exactly when the probe value is absent from the core. -/
theorem probe_cond_iff {ι α : Type} [LinearOrder α] (core : List (ι × α)) (v : α)
    (hs : core.Pairwise (fun a b => a.2 ≤ b.2)) :
    (bisectLeft (core.map (fun c => some c.2)) v =
        (core.map (fun c => some c.2)).length ∨
      ¬((core.map (fun c => some c.2))[bisectLeft (core.map (fun c => some c.2)) v]? =
        some (some v))) ↔ ∀ c ∈ core, c.2 ≠ v := by
  rw [bisectLeft_core]
  have hlen : (core.map (fun c => some c.2)).length = core.length := List.length_map _ _
  have hgetm : ∀ i : Nat, (core.map (fun c => some c.2))[i]? =
      (core[i]?).map (fun c => some c.2) := fun i => List.getElem?_map _ _ _
  by_cases hfull : core.countP (fun c => decide (c.2 < v)) = core.length
  · have hallv : ∀ c ∈ core, c.2 ≠ v := by
      intro c hc
      have h1 := List.countP_eq_length.mp hfull c hc
      simp only [decide_eq_true_eq] at h1
      exact ne_of_lt h1
    constructor
    · intro _; exact hallv
    · intro _; exact Or.inl (by rw [hlen]; exact hfull)
  · have hlt : core.countP (fun c => decide (c.2 < v)) < core.length :=
      lt_of_le_of_ne (List.countP_le_length _) hfull
    have hdrop := sorted_drop_countP Prod.snd (fun w => decide (w < v)) (ltv_dc v) core hs
    have hlen2 : 0 < (core.drop (core.countP (fun c => decide (c.2 < v)))).length := by
      rw [List.length_drop]
      omega
    obtain ⟨q, tail, htail⟩ : ∃ q tail,
        core.drop (core.countP (fun c => decide (c.2 < v))) = q :: tail := by
      cases hd : core.drop (core.countP (fun c => decide (c.2 < v))) with
      | nil => rw [hd] at hlen2; simp at hlen2
      | cons q tail => exact ⟨q, tail, rfl⟩
    have hq : core[core.countP (fun c => decide (c.2 < v))]? = some q := by
      have h1 : (core.drop (core.countP (fun c => decide (c.2 < v))))[0]? = some q := by
        rw [htail]
        simp
      rw [List.getElem?_drop] at h1
      simpa using h1
    have hqmem : q ∈ core := by
      have h1 : q ∈ core.drop (core.countP (fun c => decide (c.2 < v))) := by
        rw [htail]; exact List.mem_cons_self q tail
      have h2 := hdrop ▸ h1
      exact (List.mem_filter.mp h2).1
    have hqge : v ≤ q.2 := by
      have h1 : q ∈ core.drop (core.countP (fun c => decide (c.2 < v))) := by
        rw [htail]; exact List.mem_cons_self q tail
      have h2 := hdrop ▸ h1
      have h3 := (List.mem_filter.mp h2).2
      have h4 : ¬(q.2 < v) := by simpa using h3
      exact le_of_not_lt h4
    have hqmin : ∀ c ∈ core, c.2 = v → q.2 ≤ c.2 := by
      intro c hc hcv
      have hcf : c ∈ core.filter (fun g => !decide (g.2 < v)) := by
        rw [List.mem_filter]
        refine ⟨hc, ?_⟩
        simp [hcv]
      rw [← hdrop, htail] at hcf
      rcases List.mem_cons.mp hcf with rfl | hcf2
      · exact le_refl _
      · have hsd : (core.drop (core.countP (fun c => decide (c.2 < v)))).Pairwise
            (fun a b => a.2 ≤ b.2) := by
          rw [hdrop]
          exact hs.filter _
        rw [htail, List.pairwise_cons] at hsd
        exact hsd.1 c hcf2
    have hgetn : (List.map (fun c => some c.2) core)[core.countP
        (fun c => decide (c.2 < v))]? = some (some q.2) := by
      rw [hgetm _, hq]
      rfl
    rw [hgetn]
    constructor
    · rintro (h1 | h1)
      · rw [hlen] at h1
        exact absurd h1 hfull
      · have hqv : q.2 ≠ v := by
          intro he
          exact h1 (by rw [he])
        intro c hc hcv
        have h2 := hqmin c hc hcv
        rw [hcv] at h2
        exact hqv (le_antisymm h2 hqge)
    · intro hall
      refine Or.inr ?_
      intro h1
      exact hall q hqmem (Option.some.inj (Option.some.inj h1))

/-- Membership in the eq result of the increment querier over the sorted
core. -/
theorem incEq_mem {ι α : Type} [LinearOrder α] (core : List (ι × α)) (v : α) (x : ι)
    (hs : core.Pairwise (fun a b => a.2 ≤ b.2)) :
    x ∈ incEq (core.map Prod.fst) (core.map (fun c => some c.2)) v ↔
      ∃ c ∈ core, c.2 = v ∧ c.1 = x := by
  show x ∈ (if bisectLeft (core.map (fun c => some c.2)) v =
        (core.map (fun c => some c.2)).length ∨
      ¬((core.map (fun c => some c.2))[bisectLeft (core.map (fun c => some c.2)) v]? =
        some (some v)) then ([] : List ι)
    else ((core.map Prod.fst).take (bisectRight (core.map (fun c => some c.2)) v)).drop
      (bisectLeft (core.map (fun c => some c.2)) v)) ↔ _
  by_cases hcond : bisectLeft (core.map (fun c => some c.2)) v =
      (core.map (fun c => some c.2)).length ∨
      ¬((core.map (fun c => some c.2))[bisectLeft (core.map (fun c => some c.2)) v]? =
        some (some v))
  · rw [if_pos hcond]
    have hall := (probe_cond_iff core v hs).mp hcond
    constructor
    · intro h1
      exact absurd h1 (List.not_mem_nil x)
    · rintro ⟨c, hc, hcv, _⟩
      exact absurd hcv (hall c hc)
  · rw [if_neg hcond, bisectLeft_core, bisectRight_core]
    have htake : (core.map Prod.fst).take (core.countP (fun c => decide (c.2 ≤ v))) =
        ((core.filter (fun c => decide (c.2 < v))).map Prod.fst) ++
          ((core.filter (fun c => decide (c.2 = v))).map Prod.fst) := by
      rw [← List.map_take,
        sorted_take_countP Prod.snd (fun w => decide (w ≤ v)) (lev_dc v) core hs,
        sorted_filter_le_decomp Prod.snd v core hs, List.map_append]
    rw [htake]
    have hlo : ((core.filter (fun c => decide (c.2 < v))).map Prod.fst).length =
        core.countP (fun c => decide (c.2 < v)) := by
      rw [List.length_map, ← List.countP_eq_length_filter]
    rw [← hlo, List.drop_left, mem_map_fst_filter]
    simp

/-- Membership in the ne result of the increment querier over the sorted
core. -/
theorem incNe_mem {ι α : Type} [LinearOrder α] (core : List (ι × α)) (v : α) (x : ι)
    (hs : core.Pairwise (fun a b => a.2 ≤ b.2)) :
    x ∈ incNe (core.map Prod.fst) (core.map (fun c => some c.2)) v ↔
      ∃ c ∈ core, c.2 ≠ v ∧ c.1 = x := by
  show x ∈ (if bisectLeft (core.map (fun c => some c.2)) v =
        (core.map (fun c => some c.2)).length ∨
      ¬((core.map (fun c => some c.2))[bisectLeft (core.map (fun c => some c.2)) v]? =
        some (some v)) then core.map Prod.fst
    else (core.map Prod.fst).take (bisectLeft (core.map (fun c => some c.2)) v) ++
      (core.map Prod.fst).drop (bisectRight (core.map (fun c => some c.2)) v)) ↔ _
  by_cases hcond : bisectLeft (core.map (fun c => some c.2)) v =
      (core.map (fun c => some c.2)).length ∨
      ¬((core.map (fun c => some c.2))[bisectLeft (core.map (fun c => some c.2)) v]? =
        some (some v))
  · rw [if_pos hcond]
    have hall := (probe_cond_iff core v hs).mp hcond
    rw [List.mem_map]
    constructor
    · rintro ⟨c, hc, hcx⟩
      exact ⟨c, hc, hall c hc, hcx⟩
    · rintro ⟨c, hc, _, hcx⟩
      exact ⟨c, hc, hcx⟩
  · rw [if_neg hcond, bisectLeft_core, bisectRight_core]
    have htake : (core.map Prod.fst).take (core.countP (fun c => decide (c.2 < v))) =
        (core.filter (fun c => decide (c.2 < v))).map Prod.fst := by
      rw [← List.map_take,
        sorted_take_countP Prod.snd (fun w => decide (w < v)) (ltv_dc v) core hs]
    have hdr : (core.map Prod.fst).drop (core.countP (fun c => decide (c.2 ≤ v))) =
        (core.filter (fun c => !decide (c.2 ≤ v))).map Prod.fst := by
      rw [← List.map_drop,
        sorted_drop_countP Prod.snd (fun w => decide (w ≤ v)) (lev_dc v) core hs]
    rw [htake, hdr, List.mem_append, mem_map_fst_filter, mem_map_fst_filter]
    constructor
    · rintro (⟨c, hc, hcv, hcx⟩ | ⟨c, hc, hcv, hcx⟩)
      · refine ⟨c, hc, ?_, hcx⟩
        exact ne_of_lt (of_decide_eq_true hcv)
      · refine ⟨c, hc, ?_, hcx⟩
        have h1 : ¬(c.2 ≤ v) := by simpa using hcv
        exact ne_of_gt (lt_of_not_le h1)
    · rintro ⟨c, hc, hcv, hcx⟩
      rcases lt_or_gt_of_ne hcv with h1 | h1
      · exact Or.inl ⟨c, hc, by simpa using h1, hcx⟩
      · refine Or.inr ⟨c, hc, ?_, hcx⟩
        simp [not_le_of_gt h1]

/-- C9: for every entity list whose attribute values under the key are all
present (and drawn from one linearly ordered domain, so mutually
comparable), and for every supported operator, index construction succeeds
and the increment querier built on the sorted arrays returns, for every
comparison value, exactly the same set of entity ids as the linear-scan
querier over the original arrays. -/
theorem C9_index_scan_equivalence {ι α : Type} [LinearOrder α] (ids : List ι)
    (attrs : List (EntityAttrs α)) (key : String) (op : String)
    (hall : ∀ d ∈ attrs, (dget d key).isSome = true)
    (hop : op ∈ ["<", "<=", ">", ">=", "=", "==", "!=", "<>"]) :
    ∃ (sids : List ι) (svals : List (Option α)) (incQ scanQ : α → List ι),
      createIndexForKey ids attrs key = .ok (sids, svals) ∧
        incComparator op sids svals = some incQ ∧
        scanComparator op ids (attrs.map (fun d => dget d key)) = some scanQ ∧
        ∀ (v : α) (x : ι), x ∈ incQ v ↔ x ∈ scanQ v := by
  have hallv : ∀ w ∈ attrs.map (fun d => dget d key), w.isSome = true := by
    intro w hw
    obtain ⟨d, hd, hdw⟩ := List.mem_map.mp hw
    rw [← hdw]
    exact hall d hd
  obtain ⟨core, hmk, hperm, hsorted⟩ :=
    makeIndexE_ok ids (attrs.map (fun d => dget d key)) hallv
  simp only [List.mem_cons, List.not_mem_nil, or_false] at hop
  rcases hop with rfl | rfl | rfl | rfl | rfl | rfl | rfl | rfl
  · refine ⟨core.map Prod.fst, core.map (fun c => some c.2),
      incLt (core.map Prod.fst) (core.map (fun c => some c.2)),
      scanLt ids (attrs.map (fun d => dget d key)), ?_, ?_, ?_, ?_⟩
    · exact hmk
    · simp [incComparator]
    · simp [scanComparator]
    intro v x
    rw [incLt_mem core v x hsorted]
    rw [show (x ∈ scanLt ids (attrs.map (fun d => dget d key)) v) =
      (x ∈ ((ids.zip (attrs.map (fun d => dget d key))).filter fun p =>
        match p.2 with
        | some w => decide (w < v)
        | none => false).map Prod.fst) from rfl]
    rw [scan_mem_iff _ core hperm _ x]
    constructor
    · rintro ⟨c, hc, h1, h2⟩
      exact ⟨c, hc, by simpa using h1, h2⟩
    · rintro ⟨c, hc, h1, h2⟩
      exact ⟨c, hc, by simpa using h1, h2⟩
  · refine ⟨core.map Prod.fst, core.map (fun c => some c.2),
      incLe (core.map Prod.fst) (core.map (fun c => some c.2)),
      scanLe ids (attrs.map (fun d => dget d key)), ?_, ?_, ?_, ?_⟩
    · exact hmk
    · simp [incComparator]
    · simp [scanComparator]
    intro v x
    rw [incLe_mem core v x hsorted]
    rw [show (x ∈ scanLe ids (attrs.map (fun d => dget d key)) v) =
      (x ∈ ((ids.zip (attrs.map (fun d => dget d key))).filter fun p =>
        match p.2 with
        | some w => decide (w ≤ v)
        | none => false).map Prod.fst) from rfl]
    rw [scan_mem_iff _ core hperm _ x]
    constructor
    · rintro ⟨c, hc, h1, h2⟩
      exact ⟨c, hc, by simpa using h1, h2⟩
    · rintro ⟨c, hc, h1, h2⟩
      exact ⟨c, hc, by simpa using h1, h2⟩
  · refine ⟨core.map Prod.fst, core.map (fun c => some c.2),
      incGt (core.map Prod.fst) (core.map (fun c => some c.2)),
      scanGt ids (attrs.map (fun d => dget d key)), ?_, ?_, ?_, ?_⟩
    · exact hmk
    · simp [incComparator]
    · simp [scanComparator]
    intro v x
    rw [incGt_mem core v x hsorted]
    rw [show (x ∈ scanGt ids (attrs.map (fun d => dget d key)) v) =
      (x ∈ ((ids.zip (attrs.map (fun d => dget d key))).filter fun p =>
        match p.2 with
        | some w => decide (w > v)
        | none => false).map Prod.fst) from rfl]
    rw [scan_mem_iff _ core hperm _ x]
    constructor
    · rintro ⟨c, hc, h1, h2⟩
      exact ⟨c, hc, by simpa using h1, h2⟩
    · rintro ⟨c, hc, h1, h2⟩
      exact ⟨c, hc, by simpa using h1, h2⟩
  · refine ⟨core.map Prod.fst, core.map (fun c => some c.2),
      incGe (core.map Prod.fst) (core.map (fun c => some c.2)),
      scanGe ids (attrs.map (fun d => dget d key)), ?_, ?_, ?_, ?_⟩
    · exact hmk
    · simp [incComparator]
    · simp [scanComparator]
    intro v x
    rw [incGe_mem core v x hsorted]
    rw [show (x ∈ scanGe ids (attrs.map (fun d => dget d key)) v) =
      (x ∈ ((ids.zip (attrs.map (fun d => dget d key))).filter fun p =>
        match p.2 with
        | some w => decide (w ≥ v)
        | none => false).map Prod.fst) from rfl]
    rw [scan_mem_iff _ core hperm _ x]
    constructor
    · rintro ⟨c, hc, h1, h2⟩
      exact ⟨c, hc, by simpa using h1, h2⟩
    · rintro ⟨c, hc, h1, h2⟩
      exact ⟨c, hc, by simpa using h1, h2⟩
  · refine ⟨core.map Prod.fst, core.map (fun c => some c.2),
      incEq (core.map Prod.fst) (core.map (fun c => some c.2)),
      scanEq ids (attrs.map (fun d => dget d key)), ?_, ?_, ?_, ?_⟩
    · exact hmk
    · simp [incComparator]
    · simp [scanComparator]
    intro v x
    rw [incEq_mem core v x hsorted]
    rw [show (x ∈ scanEq ids (attrs.map (fun d => dget d key)) v) =
      (x ∈ ((ids.zip (attrs.map (fun d => dget d key))).filter fun p =>
        match p.2 with
        | some w => decide (w = v)
        | none => false).map Prod.fst) from rfl]
    rw [scan_mem_iff _ core hperm _ x]
    constructor
    · rintro ⟨c, hc, h1, h2⟩
      exact ⟨c, hc, by simpa using h1, h2⟩
    · rintro ⟨c, hc, h1, h2⟩
      exact ⟨c, hc, by simpa using h1, h2⟩
  · refine ⟨core.map Prod.fst, core.map (fun c => some c.2),
      incEq (core.map Prod.fst) (core.map (fun c => some c.2)),
      scanEq ids (attrs.map (fun d => dget d key)), ?_, ?_, ?_, ?_⟩
    · exact hmk
    · simp [incComparator]
    · simp [scanComparator]
    intro v x
    rw [incEq_mem core v x hsorted]
    rw [show (x ∈ scanEq ids (attrs.map (fun d => dget d key)) v) =
      (x ∈ ((ids.zip (attrs.map (fun d => dget d key))).filter fun p =>
        match p.2 with
        | some w => decide (w = v)
        | none => false).map Prod.fst) from rfl]
    rw [scan_mem_iff _ core hperm _ x]
    constructor
    · rintro ⟨c, hc, h1, h2⟩
      exact ⟨c, hc, by simpa using h1, h2⟩
    · rintro ⟨c, hc, h1, h2⟩
      exact ⟨c, hc, by simpa using h1, h2⟩
  · refine ⟨core.map Prod.fst, core.map (fun c => some c.2),
      incNe (core.map Prod.fst) (core.map (fun c => some c.2)),
      scanNe ids (attrs.map (fun d => dget d key)), ?_, ?_, ?_, ?_⟩
    · exact hmk
    · simp [incComparator]
    · simp [scanComparator]
    intro v x
    rw [incNe_mem core v x hsorted]
    rw [show (x ∈ scanNe ids (attrs.map (fun d => dget d key)) v) =
      (x ∈ ((ids.zip (attrs.map (fun d => dget d key))).filter fun p =>
        match p.2 with
        | some w => decide (w ≠ v)
        | none => false).map Prod.fst) from rfl]
    rw [scan_mem_iff _ core hperm _ x]
    constructor
    · rintro ⟨c, hc, h1, h2⟩
      exact ⟨c, hc, by simpa using h1, h2⟩
    · rintro ⟨c, hc, h1, h2⟩
      exact ⟨c, hc, by simpa using h1, h2⟩
  · refine ⟨core.map Prod.fst, core.map (fun c => some c.2),
      incNe (core.map Prod.fst) (core.map (fun c => some c.2)),
      scanNe ids (attrs.map (fun d => dget d key)), ?_, ?_, ?_, ?_⟩
    · exact hmk
    · simp [incComparator]
    · simp [scanComparator]
    intro v x
    rw [incNe_mem core v x hsorted]
    rw [show (x ∈ scanNe ids (attrs.map (fun d => dget d key)) v) =
      (x ∈ ((ids.zip (attrs.map (fun d => dget d key))).filter fun p =>
        match p.2 with
        | some w => decide (w ≠ v)
        | none => false).map Prod.fst) from rfl]
    rw [scan_mem_iff _ core hperm _ x]
    constructor
    · rintro ⟨c, hc, h1, h2⟩
      exact ⟨c, hc, by simpa using h1, h2⟩
    · rintro ⟨c, hc, h1, h2⟩
      exact ⟨c, hc, by simpa using h1, h2⟩

/-- C9 witness: the equivalence theorem applied to a concrete two-entity
index over integer weights with the less-than operator. -/
theorem C9_index_scan_equivalence_witness :
    (∀ d ∈ [[("w", (3 : Int))], [("w", (1 : Int))]], (dget d "w").isSome = true) ∧
      ("<" : String) ∈ ["<", "<=", ">", ">=", "=", "==", "!=", "<>"] ∧
      (∃ (sids : List Nat) (svals : List (Option Int)) (incQ scanQ : Int → List Nat),
        createIndexForKey [10, 20] [[("w", (3 : Int))], [("w", (1 : Int))]] "w" =
            .ok (sids, svals) ∧
          incComparator "<" sids svals = some incQ ∧
          scanComparator "<" [10, 20]
            ([[("w", (3 : Int))], [("w", (1 : Int))]].map (fun d => dget d "w")) =
            some scanQ ∧
          ∀ (v : Int) (x : Nat), x ∈ incQ v ↔ x ∈ scanQ v) :=
  ⟨by decide, by decide,
    C9_index_scan_equivalence [10, 20] [[("w", (3 : Int))], [("w", (1 : Int))]] "w" "<"
      (by decide) (by decide)⟩

/-- C10: index construction is partial in the presence of missing
attributes: on an entity list where the first entity lacks the key and the
second holds an integer, create_indices fails (the sort compares the
integer with None and raises), while the un-indexed scan querier on the
same data answers without failing, skipping the missing value. -/
theorem C10_create_indices_partial :
    createIndexForKey ["A", "B"] [[], [("w", (5 : Int))]] "w" = .error () ∧
      scanLt ["A", "B"] ([[], [("w", (5 : Int))]].map (fun d => dget d "w"))
        (10 : Int) = ["B"] ∧
      dget ([] : EntityAttrs Int) "w" = none ∧
      dget [("w", (5 : Int))] "w" = some 5 := by
  refine ⟨rfl, rfl, rfl, rfl⟩

/-! WHERE condition evaluation (claim C5).  The comparison operator is kept
abstract as a possibly failing function; Python exceptions are Except
errors, and the two try blocks of the source absorb operator failures. -/

/-- Python str.startswith, on the character sequence. -/
def strStartsWith (s pre : String) : Bool := List.isPrefixOf pre.data s.data

/-- Python str.endswith, on the character sequence. -/
def strEndsWith (s suf : String) : Bool :=
  List.isPrefixOf suf.data.reverse s.data.reverse

/-- The Python slice expression entity_id from three to minus one, used to
strip the ID( and ) wrapper. -/
def idInner (s : String) : String := String.mk ((s.data.drop 3).dropLast)

/-- Python str.split on the dot, on the character sequence. -/
def splitDot (s : String) : List String := (s.data.splitOn '.').map String.mk

/-- A value as handed to a WHERE comparison operator: a plain attribute
value, a node attribute dictionary, or an edge data dictionary. -/
inductive CVal where
  | v (x : PyVal)
  | nodeDict (d : Attrs)
  | edgeDict (d : List (Nat × Option Attrs))
deriving DecidableEq, Repr

/-- A host graph as cond and _get_entity_from_host see it: node attribute
dictionaries, and edge data per ordered pair, multigraph-keyed for a
MultiDiGraph and plain for a DiGraph. -/
structure CHost where
  multi : Bool
  nodes : List (String × Attrs)
  medges : List ((String × String) × List (Nat × Attrs))
  sedges : List ((String × String) × Attrs)
deriving Repr

/-- Shallow embedding of _get_edge_attributes (src/grandcypher/iinit, lines
272 to 280): a multigraph returns its edge data or None when absent; a
single-edge graph wraps its data, or None when absent, under key zero. -/
def getEdgeAttributes (h : CHost) (u v : String) :
    Option (List (Nat × Option Attrs)) :=
  if h.multi then
    (h.medges.find? (fun p => p.1 == (u, v))).map
      (fun p => p.2.map (fun e => (e.1, some e.2)))
  else
    some [(0, (h.sedges.find? (fun p => p.1 == (u, v))).map Prod.snd)]

/-- An entity to resolve in the host: a node id or an ordered node pair. -/
inductive HostEntity where
  | node (id : String)
  | edge (u v : String)
deriving DecidableEq, Repr

/-- The result of _get_entity_from_host: one object, or the per-key value
list for multigraph edge attributes. -/
inductive GetRes where
  | single (c : CVal)
  | many (cs : List CVal)
deriving DecidableEq, Repr

/-- Shallow embedding of _get_entity_from_host (src/grandcypher/iinit,
lines 296 to 324).  The error values embed exceptions the source would
raise: a node id absent from the host (the source then unpacks the id
string as a pair and fails for ids not of length two), indexing key zero
into wrapped None edge data, and mapping over None edge values; the claim
hypotheses keep bound ids inside the host, so these paths are unreachable
in the theorems. -/
def getEntityFromHost (h : CHost) (e : HostEntity) (attr : Option String) :
    Except Unit GetRes :=
  match e with
  | .node id =>
    match h.nodes.find? (fun p => p.1 == id) with
    | some p =>
      match attr with
      | some a => .ok (.single (.v (aget p.2 a .pnone)))
      | none => .ok (.single (.nodeDict p.2))
    | none => .error ()
  | .edge u v =>
    match getEdgeAttributes h u v with
    | none => .ok (.single (.v .pnone))
    | some ed =>
      if ed.isEmpty then .ok (.single (.v .pnone))
      else
        match attr with
        | some a =>
          if h.multi then
            if ed.any (fun p => p.2.isNone) then .error ()
            else .ok (.many (ed.map (fun p => .v (aget (p.2.getD []) a .pnone))))
          else
            match ed.find? (fun p => p.1 == 0) with
            | some q =>
              match q.2 with
              | some d => .ok (.single (.v (aget d a .pnone)))
              | none => .error ()
            | none => .error ()
        | none => .ok (.single (.edgeDict ed))

/-- A per-row binding from motif variable names to host node ids. -/
abbrev CMatch := List (String × String)

/-- The return-edges table: a bound edge name to its motif endpoints. -/
abbrev ReturnEdges := List (String × (String × String))

/-- Resolution of the leading entity name in cond (src/grandcypher/iinit,
lines 378 to 386): a name bound in the match resolves to its host node; a
declared return edge resolves to the host pair of its bound endpoints; any
other name raises. -/
def resolveEntity (mtch : CMatch) (returnEdges : ReturnEdges) (name : String) :
    Except Unit HostEntity :=
  match mtch.find? (fun p => p.1 == name) with
  | some p => .ok (.node p.2)
  | none =>
    match returnEdges.find? (fun p => p.1 == name) with
    | some p =>
      match mtch.find? (fun q => q.1 == p.2.1), mtch.find? (fun q => q.1 == p.2.2) with
      | some a, some b => .ok (.edge a.2 b.2)
      | _, _ => .error ()
    | none => .error ()

/-- The evaluation tail of cond (src/grandcypher/iinit, lines 388 to 408):
on a MultiDiGraph the entity lookup runs outside any try block, every
per-relation operator application is tried with failure as False, and the
condition value is their disjunction; otherwise one application covering
lookup and comparison is tried with failure as False. -/
def condApply (shouldBe : Bool) (operator : CVal → CVal → Except Unit Bool)
    (value : CVal) (host : CHost) (he : HostEntity) (attr : Option String) :
    Except Unit (Bool × List Bool) :=
  if host.multi then
    match getEntityFromHost host he attr with
    | .error e => .error e
    | .ok r =>
      let rvals := match r with
        | .many cs => cs
        | .single c => [c]
      let results := rvals.map (fun rv => ((operator rv value).toOption).getD false)
      let val := results.any (fun b => b)
      if val != shouldBe then .ok (false, results) else .ok (true, results)
  else
    let val := (((getEntityFromHost host he attr).bind
      (fun r => match r with
        | .single c => operator c value
        | .many _ => .error ())).toOption).getD false
    if val != shouldBe then .ok (false, [val]) else .ok (true, [val])

/-- Shallow embedding of the closure built by cond (src/grandcypher/iinit,
lines 358 to 410). -/
def condEval (shouldBe : Bool) (entityId : String)
    (operator : CVal → CVal → Except Unit Bool) (value : CVal)
    (mtch : CMatch) (host : CHost) (returnEdges : ReturnEdges) :
    Except Unit (Bool × List Bool) :=
  if strStartsWith entityId "ID(" && strEndsWith entityId ")" then
    match mtch.find? (fun p => p.1 == idInner entityId) with
    | some p =>
      let val := ((operator (.v (.pstr p.2)) value).toOption).getD false
      if val != shouldBe then .ok (false, [val]) else .ok (true, [val])
    | none => .error ()
  else
    match splitDot entityId with
    | [name] =>
      match resolveEntity mtch returnEdges name with
      | .error e => .error e
      | .ok he => condApply shouldBe operator value host he none
    | [name, a] =>
      match resolveEntity mtch returnEdges name with
      | .error e => .error e
      | .ok he => condApply shouldBe operator value host he (some a)
    | _ => .error ()

/-- The resolvability guard of claim C5: the condition entity is bound in
the match (to a host node) or is a declared return edge with bound
endpoints, and the entity path has one or two segments. -/
def condNameOk (mtch : CMatch) (returnEdges : ReturnEdges) (host : CHost)
    (name : String) : Bool :=
  match mtch.find? (fun p => p.1 == name) with
  | some p => (host.nodes.find? (fun q => q.1 == p.2)).isSome
  | none =>
    match returnEdges.find? (fun p => p.1 == name) with
    | some p =>
      (mtch.find? (fun q => q.1 == p.2.1)).isSome &&
        (mtch.find? (fun q => q.1 == p.2.2)).isSome
    | none => false

/-- The full resolvability guard: the guarded name condition applied to the
head of the one- or two-segment entity path, or match membership of the
inner name for the ID form. -/
def condEntityOk (entityId : String) (mtch : CMatch) (returnEdges : ReturnEdges)
    (host : CHost) : Bool :=
  if strStartsWith entityId "ID(" && strEndsWith entityId ")" then
    (mtch.find? (fun p => p.1 == idInner entityId)).isSome
  else
    match splitDot entityId with
    | [name] => condNameOk mtch returnEdges host name
    | [name, _] => condNameOk mtch returnEdges host name
    | _ => false

/-- The Python inequality operator as a condition operator: total, true on
structurally different values. -/
def pyNeOp : CVal → CVal → Except Unit Bool := fun a b => .ok (!(a == b))

/-- An if expression between two ok results is always ok. -/
theorem exists_ok_ite (c : Prop) [Decidable c] (a b : Bool × List Bool) :
    ∃ r, (if c then (Except.ok a : Except Unit (Bool × List Bool)) else .ok b) = .ok r := by
  by_cases h : c
  · exact ⟨a, if_pos h⟩
  · exact ⟨b, if_neg h⟩

/-- On a multigraph host, entity lookup never fails for a bound node
present in the host or for any node pair. -/
theorem getEntity_multi_ok (h : CHost) (hm : h.multi = true) (he : HostEntity)
    (attr : Option String)
    (hnode : ∀ id, he = .node id → (h.nodes.find? (fun p => p.1 == id)).isSome = true) :
    ∃ r, getEntityFromHost h he attr = .ok r := by
  cases he with
  | node id =>
    have hsome := hnode id rfl
    cases hf : h.nodes.find? (fun p => p.1 == id) with
    | none => rw [hf] at hsome; cases hsome
    | some p =>
      cases attr with
      | some a =>
        refine ⟨GetRes.single (.v (aget p.2 a .pnone)), ?_⟩
        show (match h.nodes.find? (fun p => p.1 == id) with
          | some p => Except.ok (GetRes.single (CVal.v (aget p.2 a PyVal.pnone)))
          | none => Except.error ()) =
          Except.ok (GetRes.single (CVal.v (aget p.2 a PyVal.pnone)))
        rw [hf]
      | none =>
        refine ⟨GetRes.single (.nodeDict p.2), ?_⟩
        show (match h.nodes.find? (fun p => p.1 == id) with
          | some p => Except.ok (GetRes.single (CVal.nodeDict p.2))
          | none => Except.error ()) =
          Except.ok (GetRes.single (CVal.nodeDict p.2))
        rw [hf]
  | edge u v =>
    simp only [getEntityFromHost, getEdgeAttributes, hm, if_true]
    cases hf : h.medges.find? (fun p => p.1 == (u, v)) with
    | none => exact ⟨_, rfl⟩
    | some p =>
      dsimp only [Option.map]
      by_cases hemp : (p.2.map (fun e => (e.1, some e.2))).isEmpty = true
      · rw [if_pos hemp]
        exact ⟨_, rfl⟩
      · rw [if_neg hemp]
        cases attr with
        | none => exact ⟨_, rfl⟩
        | some a =>
          have hany : ((p.2.map (fun e => (e.1, some e.2))).any
              (fun q => q.2.isNone)) = false := by
            rw [List.any_eq_false]
            intro q hq
            obtain ⟨e, _, he2⟩ := List.mem_map.mp hq
            rw [← he2]
            simp
          simp only [hany, Bool.false_eq_true, if_false]
          exact ⟨_, rfl⟩

/-- The evaluation tail is total once the multigraph lookup answers, and
replacing the operator by its false-on-failure totalization does not change
the result: the two try blocks absorb exactly the operator failures. -/
theorem condApply_total_eq (shouldBe : Bool) (operator : CVal → CVal → Except Unit Bool)
    (value : CVal) (host : CHost) (he : HostEntity) (attr : Option String)
    (hok : host.multi = true → ∃ r, getEntityFromHost host he attr = .ok r) :
    (∃ r, condApply shouldBe operator value host he attr = .ok r) ∧
      condApply shouldBe operator value host he attr =
        condApply shouldBe (fun a b => .ok (((operator a b).toOption).getD false))
          value host he attr := by
  by_cases hm : host.multi = true
  · obtain ⟨r, hr⟩ := hok hm
    constructor
    · unfold condApply
      rw [hm]
      simp only [if_true]
      rw [hr]
      dsimp only
      exact exists_ok_ite _ _ _
    · unfold condApply
      rw [hm]
      simp only [if_true]
      rw [hr]
      rfl
  · have hmf : host.multi = false := Bool.eq_false_iff.mpr hm
    constructor
    · unfold condApply
      rw [hmf]
      simp only [Bool.false_eq_true, if_false]
      exact exists_ok_ite _ _ _
    · unfold condApply
      rw [hmf]
      simp only [Bool.false_eq_true, if_false]
      cases getEntityFromHost host he attr with
      | error e => rfl
      | ok r =>
        cases r with
        | single c => rfl
        | many cs => rfl

/-- C5 (amended): for a WHERE comparison whose entity is bound in the match
to a host node (or is a declared return edge with bound endpoints),
evaluation of the condition never raises, and replacing the comparison
operator by its false-on-failure totalization leaves the result unchanged:
a failing operator application (type mismatch and the like) is absorbed
locally as false.  A missing attribute is passed to the operator as None,
so it yields false exactly when the operator fails on None or returns
false, and may yield true for operators satisfied by None. -/
theorem C5_cond_where_total (shouldBe : Bool) (entityId : String)
    (operator : CVal → CVal → Except Unit Bool) (value : CVal)
    (mtch : CMatch) (host : CHost) (returnEdges : ReturnEdges)
    (hok : condEntityOk entityId mtch returnEdges host = true) :
    (∃ r, condEval shouldBe entityId operator value mtch host returnEdges = .ok r) ∧
      condEval shouldBe entityId operator value mtch host returnEdges =
        condEval shouldBe entityId
          (fun a b => .ok (((operator a b).toOption).getD false)) value mtch host
          returnEdges := by
  unfold condEval
  unfold condEntityOk at hok
  by_cases hid : (strStartsWith entityId "ID(" && strEndsWith entityId ")") = true
  · rw [if_pos hid] at hok
    rw [if_pos hid, if_pos hid]
    cases hf : mtch.find? (fun p => p.1 == idInner entityId) with
    | none => rw [hf] at hok; cases hok
    | some p =>
      constructor
      · dsimp only
        exact exists_ok_ite _ _ _
      · rfl
  · rw [if_neg hid] at hok
    rw [if_neg hid, if_neg hid]
    have hresolve : ∀ name, condNameOk mtch returnEdges host name = true →
        ∃ he, resolveEntity mtch returnEdges name = .ok he ∧
          (∀ id, he = HostEntity.node id →
            (host.nodes.find? (fun p => p.1 == id)).isSome = true) := by
      intro name hname
      unfold condNameOk at hname
      cases hf : mtch.find? (fun p => p.1 == name) with
      | some p =>
        rw [hf] at hname
        refine ⟨.node p.2, ?_, ?_⟩
        · simp only [resolveEntity, hf]
        · intro id hide
          cases hide
          exact hname
      | none =>
        rw [hf] at hname
        cases hre : returnEdges.find? (fun p => p.1 == name) with
        | none => rw [hre] at hname; cases hname
        | some pe =>
          rw [hre] at hname
          rw [Bool.and_eq_true] at hname
          obtain ⟨h1, h2⟩ := hname
          cases hf1 : mtch.find? (fun q => q.1 == pe.2.1) with
          | none => rw [hf1] at h1; cases h1
          | some a =>
            cases hf2 : mtch.find? (fun q => q.1 == pe.2.2) with
            | none => rw [hf2] at h2; cases h2
            | some b =>
              refine ⟨.edge a.2 b.2, ?_, ?_⟩
              · simp only [resolveEntity, hf, hre, hf1, hf2]
              · intro id hide
                cases hide
    cases hsplit : splitDot entityId with
    | nil => rw [hsplit] at hok; cases hok
    | cons name rest =>
      cases rest with
      | nil =>
        rw [hsplit] at hok
        obtain ⟨he, hres, hnode⟩ := hresolve name hok
        simp only [hres]
        exact condApply_total_eq shouldBe operator value host he none
          (fun hm => getEntity_multi_ok host hm he none hnode)
      | cons a rest2 =>
        cases rest2 with
        | nil =>
          rw [hsplit] at hok
          obtain ⟨he, hres, hnode⟩ := hresolve name hok
          simp only [hres]
          exact condApply_total_eq shouldBe operator value host he (some a)
            (fun hm => getEntity_multi_ok host hm he (some a) hnode)
        | cons b rest3 =>
          rw [hsplit] at hok
          cases hok

/-- C5 witness: the totality theorem applied to a concrete bound node with
an age attribute, the inequality operator and a plain value. -/
theorem C5_cond_where_total_witness :
    condEntityOk "n.age" [("n", "n1")] []
        { multi := false, nodes := [("n1", [("age", PyVal.pint 25)])],
          medges := [], sedges := [] } = true ∧
      ((∃ r, condEval true "n.age" pyNeOp (.v (.pint 30)) [("n", "n1")]
          { multi := false, nodes := [("n1", [("age", PyVal.pint 25)])],
            medges := [], sedges := [] } [] = .ok r) ∧
        condEval true "n.age" pyNeOp (.v (.pint 30)) [("n", "n1")]
            { multi := false, nodes := [("n1", [("age", PyVal.pint 25)])],
              medges := [], sedges := [] } [] =
          condEval true "n.age"
            (fun a b => .ok (((pyNeOp a b).toOption).getD false)) (.v (.pint 30))
            [("n", "n1")]
            { multi := false, nodes := [("n1", [("age", PyVal.pint 25)])],
              medges := [], sedges := [] } []) :=
  ⟨by decide, C5_cond_where_total true "n.age" pyNeOp (.v (.pint 30)) [("n", "n1")]
    { multi := false, nodes := [("n1", [("age", PyVal.pint 25)])],
      medges := [], sedges := [] } [] (by decide)⟩

/-- C5 counterexample: with the attribute x missing from the bound host
node, the condition n.x not-equal 5 evaluates to True, not False: the
missing attribute is passed to the operator as None and None differs from
5, so a missing attribute does not force the comparison to yield false. -/
theorem C5_counterexample :
    condEval true "n.x" pyNeOp (.v (.pint 5)) [("n", "n1")]
        { multi := false, nodes := [("n1", [])], medges := [], sedges := [] } [] =
      .ok (true, [true]) ∧
      hasKey [] "x" = false := by
  constructor
  · rfl
  · rfl

/- C6: engine-instance reuse.  GrandCypher builds one transformer in its
constructor (src/grandcypher/iinit, line 1352) and run (lines 1355 to 1371)
calls transform and returns on that same transformer with no reset: the
motif, the return-request list and the match cache (set to None only in the
constructor, line 439, and filled at line 1018 under the falsy-cache guard
of line 977) all survive from one query to the next.  We embed exactly the
state a single-node query MATCH (var) RETURN var touches: match_clause adds
the variable to the shared motif (line 1194), return_clause appends it to
the shared request list (line 641), get_true_matches recomputes matches
only when the cache is falsy, the matcher enumerates every assignment of
host nodes to the isolated unconstrained motif nodes, and lookup reads
mapping[entity] for each known return request, raising KeyError when the
variable is absent from a cached mapping (line 521). -/

/-- A single true-match row: motif variable bound to a host node id. -/
abbrev TMatchRow := List (String × String)

/-- The transformer state that run calls share: accumulated motif node
variables, accumulated return requests, and the match cache (None before
the first query, as in the constructor). -/
structure TState where
  motifNodes : List String
  returnRequests : List String
  mcache : Option (List TMatchRow)

/-- The state the GrandCypher constructor builds. -/
def initState : TState :=
  { motifNodes := [], returnRequests := [], mcache := none }

/-- Python truthiness of the match cache: non-None and non-empty. -/
def cacheTruthy : Option (List TMatchRow) → Bool
  | none => false
  | some l => !l.isEmpty

/-- match_clause for a bare node pattern: nx add_node on the shared motif
(idempotent on an already-present variable). -/
def matchClauseNode (s : TState) (u : String) : TState :=
  if s.motifNodes.contains u then s
  else { s with motifNodes := s.motifNodes ++ [u] }

/-- return_clause for a plain variable: append to the shared request list. -/
def returnClauseVar (s : TState) (item : String) : TState :=
  { s with returnRequests := s.returnRequests ++ [item] }

/-- Every assignment of host nodes to the motif variables: what joining one
matcher iterator per isolated unconstrained motif node enumerates. -/
def allMaps (vars : List String) (host : List String) : List TMatchRow :=
  match vars with
  | [] => [[]]
  | u :: us => host.flatMap (fun n => (allMaps us host).map (fun m => (u, n) :: m))

/-- get_true_matches with its cache guard: recompute and store only when
the cache is falsy, otherwise return the stale cached rows unchanged. -/
def getTrueMatches (host : List String) (s : TState) : TState × List TMatchRow :=
  if cacheTruthy s.mcache then (s, s.mcache.getD [])
  else
    let tm := allMaps s.motifNodes host
    ({ s with mcache := some tm }, tm)

/-- mapping[entity_name] for every true match: Python raises KeyError when
the variable is missing from a cached mapping. -/
def lookupVar (tm : List TMatchRow) (v : String) : Except Unit (List String) :=
  tm.mapM (fun m =>
    match m.find? (fun p => p.1 == v) with
    | some p => Except.ok p.2
    | none => Except.error ())

/-- The lookup over the return requests: an entity outside the motif raises
NotImplementedError, a known one reads mapping[entity] per true match. -/
def lookupAll (tm : List TMatchRow) (motifNodes : List String) :
    List String → Except Unit (List (String × List String))
  | [] => .ok []
  | r :: rs =>
    if motifNodes.contains r then
      match lookupVar tm r with
      | .error e => .error e
      | .ok vs =>
        match lookupAll tm motifNodes rs with
        | .error e => .error e
        | .ok rest => .ok ((r, vs) :: rest)
    else .error ()

/-- One run call for the query MATCH (v) RETURN v on the shared
transformer state: match_clause, return_clause, get_true_matches under the
cache guard, then the lookup of every accumulated return request. -/
def runQ (host : List String) (s : TState) (v : String) :
    TState × Except Unit (List (String × List String)) :=
  let s1 := matchClauseNode s v
  let s2 := returnClauseVar s1 v
  let st := getTrueMatches host s2
  (st.1, lookupAll st.2 st.1.motifNodes st.1.returnRequests)

/-- C6 is a code bug: with host nodes x and y, MATCH (b) RETURN b on a
fresh instance returns both nodes for b, but the same query on the
instance that already ran MATCH (a) RETURN a reuses the stale match cache
(rows binding only a) while the leaked motif makes b a known entity, so
the lookup mapping[b] raises KeyError; the reused-instance result differs
from the fresh-instance result, so engine state does carry over between
run calls. -/
theorem C6_instance_reuse_leak :
    (runQ ["x", "y"] initState "b").2 = .ok [("b", ["x", "y"])] ∧
    (runQ ["x", "y"] (runQ ["x", "y"] initState "a").1 "b").2 = .error () ∧
    (runQ ["x", "y"] (runQ ["x", "y"] initState "a").1 "b").2 ≠
      (runQ ["x", "y"] initState "b").2 := by
  refine ⟨rfl, rfl, fun h => ?_⟩
  have h2 : (Except.error () : Except Unit (List (String × List String))) =
      .ok [("b", ["x", "y"])] := h
  cases h2

end GrandCypher
